import Mathlib

/-!
# Verification of the css-in-js caching core

Shallow embedding of the caching subsystem:
* `Entity` — the reference-counted key→value store (`Cache.ts`),
* `ThemeCache` — the hierarchical LRU trie keyed by derivation-function
  identities (`ThemeCache.ts`),
* the consumer lifecycle controller `useClientCache` (`clearCache` and the
  acquisition body of the `watch` callback).

Opaque JavaScript identities (derivation functions, `Theme` objects, cache
payload objects) are modelled as natural-number handles.  JavaScript `Map`s
are modelled as association lists with `Map.set` replacing in place and
`Map.delete` removing the (unique) key.  Code that can throw a `TypeError`
(reading a property of `undefined` behind a non-null assertion) is modelled
with `Option`, `none` standing for the thrown exception; such code performs
no state mutation before the potential throw, so no partial state needs
modelling.
-/

/-! ## ThemeCache: data model

`type ThemeCacheMap = Map<DerivativeFunc, { map?: ThemeCacheMap; value?: [Theme, number] }>`
-/

mutual

inductive TNode : Type where
  | mk (map : Option TMap) (value : Option (Nat × Nat)) : TNode
  deriving Repr

inductive TMap : Type where
  | nil : TMap
  | cons (key : Nat) (node : TNode) (rest : TMap) : TMap
  deriving Repr

end

def TNode.map : TNode → Option TMap
  | .mk m _ => m

def TNode.value : TNode → Option (Nat × Nat)
  | .mk _ v => v

/-- `Map.get` -/
def TMap.lookup : TMap → Nat → Option TNode
  | .nil, _ => none
  | .cons k n rest, d => if k = d then some n else rest.lookup d

/-- `Map.set`: replaces the entry in place if the key is present, else appends. -/
def TMap.setEntry : TMap → Nat → TNode → TMap
  | .nil, d, v => .cons d v .nil
  | .cons k n rest, d, v => if k = d then .cons k v rest else .cons k n (rest.setEntry d v)

/-- `Map.delete` -/
def TMap.eraseKey : TMap → Nat → TMap
  | .nil, _ => .nil
  | .cons k n rest, d => if k = d then rest else .cons k n (rest.eraseKey d)

/-- `Map.size === 0` -/
def TMap.isNil : TMap → Bool
  | .nil => true
  | .cons _ _ _ => false

/-- The `ThemeCache` instance state: the trie, the key registry and the
access counter (the `MAX_CACHE_SIZE` / `MAX_CACHE_OFFSET` static fields are
passed to `set` as parameters, since the tests mutate them). -/
structure ThemeCache where
  cache : TMap
  keys : List (List Nat)
  cacheCallTimes : Nat
  deriving Repr

/-- `ThemeCache.MAX_CACHE_SIZE` default. -/
def ThemeCache.MAX_CACHE_SIZE : Nat := 20

/-- `ThemeCache.MAX_CACHE_OFFSET` default. -/
def ThemeCache.MAX_CACHE_OFFSET : Nat := 5

/-- `new ThemeCache()` -/
def ThemeCache.fresh : ThemeCache := ⟨TMap.nil, [], 0⟩

/-- `size()` -/
def ThemeCache.size (s : ThemeCache) : Nat := s.keys.length

/-- `sameDerivativeOption`: length check plus element-wise identity. -/
def sameDerivativeOption (left right : List Nat) : Bool :=
  if left.length ≠ right.length then false
  else (List.range left.length).all (fun i => left.getD i 0 == right.getD i 0)

/-- The traversal loop of `internalGet`:
`let cache = { map: this.cache }; derivativeOption.forEach(d => { cache = cache?.map?.get(d); })`
(the `if (!cache) cache = undefined` branch is a no-op). -/
def internalGetAux (root : TMap) (seq : List Nat) : Option TNode :=
  seq.foldl (fun c d => c.bind (fun n => n.map.bind (fun mm => mm.lookup d)))
    (some (TNode.mk (some root) none))

/-- The in-place mutation `cache.value[1] = this.cacheCallTimes++` on the node
found by the traversal, expressed as a functional update along the path; it
rewrites the stamp only when a leaf value exists at the end of the path,
exactly the condition `cache?.value` guarding the mutation. -/
def stampAt : TMap → List Nat → Nat → TMap
  | m, [], _ => m
  | m, [d], t =>
    match m.lookup d with
    | some (TNode.mk mm (some v)) => m.setEntry d (TNode.mk mm (some (v.1, t)))
    | _ => m
  | m, d :: e :: rest, t =>
    match m.lookup d with
    | some (TNode.mk (some mm) v) => m.setEntry d (TNode.mk (some (stampAt mm (e :: rest) t)) v)
    | _ => m

/-- `internalGet(derivativeOption, updateCallTimes)`: returns the
`[Theme, number]` leaf tuple (with the refreshed stamp, as in the source,
which returns the mutated tuple) together with the possibly-stamped state. -/
def ThemeCache.internalGet (s : ThemeCache) (seq : List Nat) (updateCallTimes : Bool) :
    Option (Nat × Nat) × ThemeCache :=
  match internalGetAux s.cache seq with
  | some n =>
    match n.value, updateCallTimes with
    | some v, true =>
      (some (v.1, s.cacheCallTimes),
       { cache := stampAt s.cache seq s.cacheCallTimes, keys := s.keys,
         cacheCallTimes := s.cacheCallTimes + 1 })
    | r, _ => (r, s)
  | none => (none, s)

/-- `get(derivativeOption)` -/
def ThemeCache.get (s : ThemeCache) (seq : List Nat) : Option Nat × ThemeCache :=
  let r := s.internalGet seq true
  (r.1.map Prod.fst, r.2)

/-- `has(derivativeOption)`: `!!this.internalGet(derivativeOption)` (the leaf
tuple is an array, always truthy when present). -/
def ThemeCache.has (s : ThemeCache) (seq : List Nat) : Bool :=
  (s.internalGet seq false).1.isSome

/-- The stamp stored at a registered key, read without touching recency:
`this.internalGet(key)![1]` as an `Option` (`none` models the `TypeError`
thrown when the leaf is missing behind the non-null assertion). -/
def stampOfB (s : ThemeCache) (k : List Nat) : Option Nat :=
  ((internalGetAux s.cache k).bind TNode.value).map Prod.snd

/-- Total version of `stampOfB` used for stating specifications. -/
def stampOfD (s : ThemeCache) (k : List Nat) : Nat :=
  (stampOfB s k).getD 0

/-- `deleteByPath(currentCache, derivatives)`.  `none` models the `TypeError`
raised by `currentCache.get(derivatives[0])!` when the key is absent or by
recursing into a missing `cache.map!`.  For a node at the end of the path the
source keeps `{ map: cache.map }` whenever `cache.map` is set — even when that
map is empty (an empty `Map` is truthy). -/
def deleteByPath : TMap → List Nat → Option (Option Nat × TMap)
  | _, [] => none
  | m, [d] =>
    match m.lookup d with
    | none => none
    | some n =>
      match n.map with
      | none => some (n.value.map Prod.fst, m.eraseKey d)
      | some mm => some (n.value.map Prod.fst, m.setEntry d (TNode.mk (some mm) none))
  | m, d :: e :: rest =>
    match m.lookup d with
    | none => none
    | some n =>
      match n.map with
      | none => none
      | some mm =>
        (deleteByPath mm (e :: rest)).map (fun p =>
          if p.2.isNil && n.value.isNone then (p.1, m.eraseKey d)
          else (p.1, m.setEntry d (TNode.mk (some p.2) n.value)))

/-- `delete(derivativeOption)` -/
def ThemeCache.delete (s : ThemeCache) (seq : List Nat) :
    Option (Option Nat × ThemeCache) :=
  if s.has seq then
    (deleteByPath s.cache seq).map (fun p =>
      (p.1, { cache := p.2,
              keys := s.keys.filter (fun item => !sameDerivativeOption item seq),
              cacheCallTimes := s.cacheCallTimes }))
  else some (none, s)

/-- The write loop of `set`: at the last element the node is replaced by
`{ value: [value, this.cacheCallTimes++] }` (dropping any existing `map`); at
intermediate elements a missing node becomes `{ map: new Map() }` and a
missing `map` on an existing node is created in place, keeping `value`. -/
def writePath (m : TMap) (seq : List Nat) (v : Nat) (t : Nat) : TMap :=
  match seq with
  | [] => m
  | [d] => m.setEntry d (TNode.mk none (some (v, t)))
  | d :: e :: rest =>
    match m.lookup d with
    | none => m.setEntry d (TNode.mk (some (writePath TMap.nil (e :: rest) v t)) none)
    | some n => m.setEntry d (TNode.mk (some (writePath (n.map.getD TMap.nil) (e :: rest) v t)) n.value)

/-- The eviction scan of `set`:
`this.keys.reduce((result, key) => ..., [this.keys[0], this.cacheCallTimes])`.
`none` models the `TypeError` from `this.internalGet(key)![1]` when a
registered key has no leaf, and the throw in `this.delete(undefined)` when
the registry is empty. -/
def evictScan (s : ThemeCache) : Option (List Nat) := do
  let k0 ← s.keys.head?
  let r ← s.keys.foldlM
    (fun (res : List Nat × Nat) key => do
      let st ← stampOfB s key
      pure (if st < res.2 then (key, st) else res))
    (k0, s.cacheCallTimes)
  pure r.1

/-- `set(derivativeOption, value)` with the static capacity fields as
parameters.  `none` models a thrown `TypeError` (which in the source happens
before any mutation). -/
def ThemeCache.set (maxSize maxOffset : Nat) (s : ThemeCache) (seq : List Nat) (v : Nat) :
    Option ThemeCache := do
  let s1 ←
    if !(s.has seq) then do
      let s0 ←
        if s.size + 1 > maxSize + maxOffset then do
          let tk ← evictScan s
          let r ← s.delete tk
          pure r.2
        else pure s
      pure { s0 with keys := s0.keys ++ [seq] }
    else pure s
  pure (if seq.isEmpty then s1
        else { s1 with cache := writePath s1.cache seq v s1.cacheCallTimes,
                       cacheCallTimes := s1.cacheCallTimes + 1 })

/-- Observable operations on a `ThemeCache` instance. -/
inductive CacheOp : Type where
  | lookupOp (seq : List Nat) : CacheOp
  | presenceOp (seq : List Nat) : CacheOp
  | insertOp (seq : List Nat) (v : Nat) : CacheOp
  | removeOp (seq : List Nat) : CacheOp
  deriving Repr, DecidableEq

/-- The derivative sequence an operation addresses. -/
def CacheOp.seqOf : CacheOp → List Nat
  | .lookupOp q => q
  | .presenceOp q => q
  | .insertOp q _ => q
  | .removeOp q => q

/-- Run one operation.  `has` performs no mutation (its `internalGet` call
passes `updateCallTimes = false`); `get` keeps the stamped state; `set` and
`delete` may throw (`none`). -/
def runOp (maxSize maxOffset : Nat) (s : ThemeCache) : CacheOp → Option ThemeCache
  | .lookupOp q => some (s.get q).2
  | .presenceOp _ => some s
  | .insertOp q v => ThemeCache.set maxSize maxOffset s q v
  | .removeOp q => (s.delete q).map Prod.snd

/-- Run a sequence of operations from a fresh instance. -/
def runOps (maxSize maxOffset : Nat) (ops : List CacheOp) : Option ThemeCache :=
  ops.foldlM (fun s op => runOp maxSize maxOffset s op) ThemeCache.fresh

/-! ### Observers on the trie -/

mutual

/-- Paths (relative to the node) at which a leaf value is stored. -/
def TNode.leaves : TNode → List (List Nat)
  | .mk m v =>
    (match v with | some _ => [([] : List Nat)] | none => []) ++
    (match m with | some mm => mm.leaves | none => [])

/-- Paths at which a reachable leaf value is stored in the trie. -/
def TMap.leaves : TMap → List (List Nat)
  | .nil => []
  | .cons k n rest => (n.leaves).map (fun p => k :: p) ++ rest.leaves

end

mutual

/-- All access-counter stamps stored in the subtree. -/
def TNode.stamps : TNode → List Nat
  | .mk m v =>
    (match v with | some p => [p.2] | none => []) ++
    (match m with | some mm => mm.stamps | none => [])

/-- All access-counter stamps stored in the trie. -/
def TMap.stamps : TMap → List Nat
  | .nil => []
  | .cons _ n rest => n.stamps ++ rest.stamps

end

mutual

/-- A node holds children, a leaf value, or both — the "never neither"
property of a single node. -/
def TNode.holdsSomething : TNode → Bool
  | .mk m v => v.isSome || (match m with | some mm => !mm.isNil | none => false)

/-- Every node of the subtree holds children or a value. -/
def TNode.subtreeHolds : TNode → Bool
  | .mk m v =>
    (TNode.holdsSomething (.mk m v)) &&
    (match m with | some mm => mm.allNodesHold | none => true)

/-- Every reachable node of the trie holds children or a value. -/
def TMap.allNodesHold : TMap → Bool
  | .nil => true
  | .cons _ n rest => n.subtreeHolds && rest.allNodesHold

end

mutual

/-- Well-formed node: either a leaf (`value`, no `map`) or an interior node
(no `value`, a non-empty well-formed `map`). -/
def TNode.good : TNode → Bool
  | .mk none (some _) => true
  | .mk (some mm) none => !mm.isNil && mm.good
  | .mk none none => false
  | .mk (some _) (some _) => false

/-- Well-formed trie level: keys are distinct and every node is well-formed. -/
def TMap.good : TMap → Bool
  | .nil => true
  | .cons k n rest => n.good && (rest.lookup k).isNone && rest.good

end

/-! ## Cache Entity (`Cache.ts`) -/

/-- `SPLIT = '%'` -/
def SPLIT : String := "%"

/-- `type ValueType = [number, any]`: reference count and payload (the payload
is a JS object identity, hence truthy whenever present; `none` is
`undefined`). -/
abbrev ValueType := Int × Option Nat

/-- `CacheKeyType[] | string` argument of `get`/`update`. -/
inductive CacheKeys : Type where
  | arr (ks : List String) : CacheKeys
  | str (s : String) : CacheKeys

/-- `Array.isArray(keys) ? keys.join(SPLIT) : keys` -/
def joinPath : CacheKeys → String
  | .arr ks => String.intercalate SPLIT ks
  | .str s => s

/-- `Map.get` on the entity map. -/
def mapGet : List (String × ValueType) → String → Option ValueType
  | [], _ => none
  | (k, v) :: rest, key => if k = key then some v else mapGet rest key

/-- `Map.set` on the entity map. -/
def mapSet : List (String × ValueType) → String → ValueType → List (String × ValueType)
  | [], key, v => [(key, v)]
  | (k, w) :: rest, key, v =>
    if k = key then (k, v) :: rest else (k, w) :: mapSet rest key v

/-- `Map.delete` on the entity map. -/
def mapDel : List (String × ValueType) → String → List (String × ValueType)
  | [], _ => []
  | (k, w) :: rest, key => if k = key then rest else (k, w) :: mapDel rest key

/-- The cache entity (`instanceId` is irrelevant to the claims and omitted). -/
structure Entity where
  cache : List (String × ValueType)
  deriving Repr

/-- `Entity.get(keys)` (`|| null` becomes `none`). -/
def Entity.get (e : Entity) (keys : CacheKeys) : Option ValueType :=
  mapGet e.cache (joinPath keys)

/-- `Entity.update(keys, valueFn)`.  The callback may perform side effects
(disposal callbacks, factory invocation); these are returned through the
second component.  The map is written only after `valueFn` returns, so any
side effect of `valueFn` observes the entity still in its previous state. -/
def Entity.update {ε : Type} (e : Entity) (keys : CacheKeys)
    (valueFn : Option ValueType → Option ValueType × ε) : Entity × ε :=
  let path := joinPath keys
  let prevValue := mapGet e.cache path
  let r := valueFn prevValue
  (match r.1 with
   | none => ⟨mapDel e.cache path⟩
   | some v => ⟨mapSet e.cache path v⟩, r.2)

/-! ## Consumer lifecycle controller (`useClientCache`) -/

/-- One `onCacheRemove` invocation: the payload passed, the `fromHMR` flag,
and the entity as observable at the moment the callback runs (the map write
in `Entity.update` happens only after the callback returns). -/
structure DisposalEvent where
  payload : Option Nat
  fromHMR : Bool
  snapshot : Entity
  deriving Repr

/-- Controller-visible state: the shared entity, the fresh-identity allocator
modelling `genCache()` results (each factory call returns a new object
identity), and the disposal log. -/
structure Ctrl where
  entity : Entity
  nextId : Nat
  events : List DisposalEvent
  deriving Repr

/-- A fresh style context: empty entity, no allocations, no disposals. -/
def Ctrl.fresh : Ctrl := ⟨⟨[]⟩, 0, []⟩

/-- `clearCache(cacheKeyCompleteness)`:
reference-count decrement; at zero the disposal callback runs (with
`fromHMR = false`) and the callback returns `null`, upon which
`Entity.update` deletes the entry — after the callback has run. -/
def Ctrl.clearCache (st : Ctrl) (key : String) : Ctrl :=
  let r := Entity.update st.entity (CacheKeys.str key) (fun prevCache =>
    let times : Int := (prevCache.map Prod.fst).getD 0
    let cache : Option Nat := prevCache.bind Prod.snd
    let nextCount := times - 1
    if nextCount = 0 then
      (none, [⟨cache, false, st.entity⟩])
    else
      (some (times - 1, cache), []))
  { st with entity := r.1, events := st.events ++ r.2 }

/-- The acquisition body of the `watch` callback for the (new) key:
fetch-or-create with reference-count increment, the development-time
hot-reload override, and the final
`cacheKey.value = styleContext.value.cache.get(...)![1]` exposure (returned as
the second component). -/
def Ctrl.acquire (st : Ctrl) (key : String) (prodEnv HMRUpdate : Bool) :
    Ctrl × Option Nat :=
  let r := Entity.update st.entity (CacheKeys.str key) (fun prevCache =>
    let times : Int := (prevCache.map Prod.fst).getD 0
    let cache : Option Nat := prevCache.bind Prod.snd
    let tmpCache := cache
    let hmrHit := !prodEnv && tmpCache.isSome && HMRUpdate
    let evs : List DisposalEvent :=
      if hmrHit then [⟨tmpCache, HMRUpdate, st.entity⟩] else []
    let tmpCache : Option Nat := if hmrHit then none else tmpCache
    match tmpCache with
    | some c => (some (times + 1, some c), (evs, false))
    | none => (some (times + 1, some st.nextId), (evs, true)))
  let st' : Ctrl :=
    { entity := r.1,
      nextId := if r.2.2 then st.nextId + 1 else st.nextId,
      events := st.events ++ r.2.1 }
  (st', (Entity.get r.1 (CacheKeys.str key)).bind Prod.snd)

/-- `N` components acquiring the same key from a fresh context. -/
def acquireN (k : String) : Nat → Ctrl
  | 0 => Ctrl.fresh
  | n + 1 => ((acquireN k n).acquire k false false).1

/-- `j` releases of the key starting from `st`. -/
def releaseN (k : String) (st : Ctrl) : Nat → Ctrl
  | 0 => st
  | n + 1 => (releaseN k st n).clearCache k

/-- Payload identities stored in an entity map. -/
def payloadsOf (m : List (String × ValueType)) : List Nat :=
  m.filterMap (fun kv => kv.2.2)

/-- Payload identities stored in the entity. -/
def entityPayloads (e : Entity) : List Nat :=
  payloadsOf e.cache

/-- Allocator sanity: entity keys are distinct, every stored payload identity
was produced by the allocator (is below `nextId`), and distinct entries hold
distinct payload identities.  Holds in every reachable controller state. -/
def CtrlInv (st : Ctrl) : Prop :=
  (st.entity.cache.map Prod.fst).Nodup ∧
  (∀ q ∈ entityPayloads st.entity, q < st.nextId) ∧
  (entityPayloads st.entity).Nodup

/-! ## Basic lemmas about the entity map -/

theorem mapGet_eq_none_of_not_mem (m : List (String × ValueType)) (k : String)
    (h : k ∉ m.map Prod.fst) : mapGet m k = none := by
  induction m with
  | nil => rfl
  | cons hd tl ih =>
    obtain ⟨a, b⟩ := hd
    simp only [List.map_cons, List.mem_cons, not_or] at h
    simp only [mapGet]
    rw [if_neg (fun hh => h.1 hh.symm), ih h.2]

theorem mem_keys_of_mapGet_some (m : List (String × ValueType)) (k : String) (v : ValueType)
    (h : mapGet m k = some v) : k ∈ m.map Prod.fst := by
  by_contra hc
  rw [mapGet_eq_none_of_not_mem m k hc] at h
  exact Option.noConfusion h

theorem mapGet_mapSet_self (m : List (String × ValueType)) (k : String) (v : ValueType) :
    mapGet (mapSet m k v) k = some v := by
  induction m with
  | nil => simp [mapSet, mapGet]
  | cons hd tl ih =>
    obtain ⟨a, b⟩ := hd
    by_cases h : a = k
    · simp [mapSet, mapGet, h]
    · simp [mapSet, mapGet, h, ih]

theorem mapGet_mapSet_ne (m : List (String × ValueType)) (k k' : String) (v : ValueType)
    (h : k' ≠ k) : mapGet (mapSet m k v) k' = mapGet m k' := by
  induction m with
  | nil => simp [mapSet, mapGet, h.symm]
  | cons hd tl ih =>
    obtain ⟨a, b⟩ := hd
    by_cases hh : a = k
    · subst hh
      simp [mapSet, mapGet, Ne.symm h]
    · by_cases hk' : a = k'
      · simp [mapSet, mapGet, hh, hk', h]
      · simp [mapSet, mapGet, hh, hk', ih]

theorem mapGet_mapDel_ne (m : List (String × ValueType)) (k k' : String)
    (h : k' ≠ k) : mapGet (mapDel m k) k' = mapGet m k' := by
  induction m with
  | nil => simp [mapDel]
  | cons hd tl ih =>
    obtain ⟨a, b⟩ := hd
    by_cases hh : a = k
    · subst hh
      simp [mapDel, mapGet, Ne.symm h]
    · by_cases hk' : a = k'
      · simp [mapDel, mapGet, hh, hk', h]
      · simp [mapDel, mapGet, hh, hk', ih]

theorem mapGet_mapDel_self (m : List (String × ValueType)) (k : String)
    (hnd : (m.map Prod.fst).Nodup) : mapGet (mapDel m k) k = none := by
  induction m with
  | nil => rfl
  | cons hd tl ih =>
    obtain ⟨a, b⟩ := hd
    simp only [List.map_cons, List.nodup_cons] at hnd
    by_cases hh : a = k
    · subst hh
      simp only [mapDel, if_pos rfl]
      exact mapGet_eq_none_of_not_mem tl a hnd.1
    · simp [mapDel, mapGet, hh, ih hnd.2]

theorem payloadsOf_nil : payloadsOf [] = [] := rfl

theorem payloadsOf_cons (a : String) (v : ValueType) (tl : List (String × ValueType)) :
    payloadsOf ((a, v) :: tl) = v.2.toList ++ payloadsOf tl := by
  cases hv : v.2 <;> simp [payloadsOf, List.filterMap_cons, hv]

theorem mem_payloadsOf_of_mapGet (m : List (String × ValueType)) (k : String) (t : Int)
    (p : Nat) (h : mapGet m k = some (t, some p)) : p ∈ payloadsOf m := by
  induction m with
  | nil => simp [mapGet] at h
  | cons hd tl ih =>
    obtain ⟨a, v⟩ := hd
    simp only [mapGet] at h
    rw [payloadsOf_cons]
    by_cases hh : a = k
    · rw [if_pos hh] at h
      cases h
      simp
    · rw [if_neg hh] at h
      simp [ih h]

theorem payloadsOf_mapSet_mem (m : List (String × ValueType)) (k : String) (t : Int)
    (po : Option Nat) (x : Nat) (h : x ∈ payloadsOf (mapSet m k (t, po))) :
    x ∈ payloadsOf m ∨ po = some x := by
  induction m with
  | nil =>
    simp only [mapSet] at h
    rw [payloadsOf_cons] at h
    simp only [payloadsOf_nil, List.append_nil] at h
    cases po with
    | none => simp at h
    | some q => simp at h; exact Or.inr (by rw [h])
  | cons hd tl ih =>
    obtain ⟨a, v⟩ := hd
    by_cases hh : a = k
    · rw [mapSet, if_pos hh, payloadsOf_cons] at h
      rw [payloadsOf_cons]
      simp only [List.mem_append] at h ⊢
      rcases h with h | h
      · cases po with
        | none => simp at h
        | some q => simp at h; exact Or.inr (by rw [h])
      · exact Or.inl (Or.inr h)
    · rw [mapSet, if_neg hh, payloadsOf_cons] at h
      rw [payloadsOf_cons]
      simp only [List.mem_append] at h ⊢
      rcases h with h | h
      · exact Or.inl (Or.inl h)
      · rcases ih h with h' | h'
        · exact Or.inl (Or.inr h')
        · exact Or.inr h'

theorem payloadsOf_mapSet_same (m : List (String × ValueType)) (k : String) (t0 t1 : Int)
    (po : Option Nat) (h : mapGet m k = some (t0, po)) :
    payloadsOf (mapSet m k (t1, po)) = payloadsOf m := by
  induction m with
  | nil => simp [mapGet] at h
  | cons hd tl ih =>
    obtain ⟨a, v⟩ := hd
    simp only [mapGet] at h
    by_cases hh : a = k
    · rw [if_pos hh] at h
      cases h
      rw [mapSet, if_pos hh, payloadsOf_cons, payloadsOf_cons]
    · rw [if_neg hh] at h
      rw [mapSet, if_neg hh, payloadsOf_cons, payloadsOf_cons, ih h]

theorem payloadsOf_mapSet_new (m : List (String × ValueType)) (k : String) (t : Int)
    (po : Option Nat) (h : mapGet m k = none) :
    payloadsOf (mapSet m k (t, po)) = payloadsOf m ++ po.toList := by
  induction m with
  | nil => simp [mapSet, payloadsOf_cons, payloadsOf_nil]
  | cons hd tl ih =>
    obtain ⟨a, v⟩ := hd
    simp only [mapGet] at h
    by_cases hh : a = k
    · rw [if_pos hh] at h; exact absurd h (by simp)
    · rw [if_neg hh] at h
      rw [mapSet, if_neg hh, payloadsOf_cons, payloadsOf_cons, ih h, List.append_assoc]

theorem payloadsOf_mapSet_nodup (m : List (String × ValueType)) (k : String) (t : Int)
    (po : Option Nat) (hnd : (payloadsOf m).Nodup)
    (hfresh : ∀ q, po = some q → q ∉ payloadsOf m) :
    (payloadsOf (mapSet m k (t, po))).Nodup := by
  induction m with
  | nil =>
    simp only [mapSet]
    rw [payloadsOf_cons]
    cases po <;> simp [payloadsOf]
  | cons hd tl ih =>
    obtain ⟨a, v⟩ := hd
    rw [payloadsOf_cons] at hnd
    by_cases hh : a = k
    · rw [mapSet, if_pos hh, payloadsOf_cons]
      have htl : (payloadsOf tl).Nodup := hnd.of_append_right
      cases po with
      | none => simpa using htl
      | some q =>
        simp only [Option.toList_some, List.singleton_append, List.nodup_cons]
        refine ⟨fun hq => hfresh q rfl ?_, htl⟩
        rw [payloadsOf_cons]
        simp [hq]
    · rw [mapSet, if_neg hh, payloadsOf_cons]
      have htl : (payloadsOf tl).Nodup := hnd.of_append_right
      have hset : (payloadsOf (mapSet tl k (t, po))).Nodup := by
        refine ih htl (fun q hq hmem => hfresh q hq ?_)
        rw [payloadsOf_cons]; simp [hmem]
      cases hv : v.2 with
      | none => simpa using hset
      | some pv =>
        simp only [hv, Option.toList_some, List.singleton_append, List.nodup_cons]
        refine ⟨fun hmem => ?_, hset⟩
        rcases payloadsOf_mapSet_mem tl k t po pv hmem with h' | h'
        · rw [hv] at hnd
          simp only [Option.toList_some, List.singleton_append, List.nodup_cons] at hnd
          exact hnd.1 h'
        · refine hfresh pv h' ?_
          rw [payloadsOf_cons, hv]; simp

theorem payloadsOf_mapDel_mem (m : List (String × ValueType)) (k : String) (x : Nat)
    (h : x ∈ payloadsOf (mapDel m k)) : x ∈ payloadsOf m := by
  induction m with
  | nil => simpa [mapDel] using h
  | cons hd tl ih =>
    obtain ⟨a, v⟩ := hd
    by_cases hh : a = k
    · rw [mapDel, if_pos hh] at h
      rw [payloadsOf_cons]
      simp [h]
    · rw [mapDel, if_neg hh, payloadsOf_cons] at h
      rw [payloadsOf_cons]
      simp only [List.mem_append] at h ⊢
      rcases h with h | h
      · exact Or.inl h
      · exact Or.inr (ih h)

theorem payloadsOf_mapDel_nodup (m : List (String × ValueType)) (k : String)
    (hnd : (payloadsOf m).Nodup) : (payloadsOf (mapDel m k)).Nodup := by
  induction m with
  | nil => simpa [mapDel] using hnd
  | cons hd tl ih =>
    obtain ⟨a, v⟩ := hd
    rw [payloadsOf_cons] at hnd
    by_cases hh : a = k
    · rw [mapDel, if_pos hh]
      exact hnd.of_append_right
    · rw [mapDel, if_neg hh, payloadsOf_cons]
      have htl := ih hnd.of_append_right
      cases hv : v.2 with
      | none => simpa using htl
      | some pv =>
        simp only [Option.toList_some, List.singleton_append, List.nodup_cons]
        refine ⟨fun hmem => ?_, htl⟩
        rw [hv] at hnd
        simp only [Option.toList_some, List.singleton_append, List.nodup_cons] at hnd
        exact hnd.1 (payloadsOf_mapDel_mem tl k pv hmem)

theorem keysOf_mapSet_mem (m : List (String × ValueType)) (k : String) (v : ValueType)
    (x : String) (h : x ∈ (mapSet m k v).map Prod.fst) :
    x ∈ m.map Prod.fst ∨ x = k := by
  induction m with
  | nil => simpa [mapSet] using h
  | cons hd tl ih =>
    obtain ⟨a, w⟩ := hd
    by_cases hh : a = k
    · rw [mapSet, if_pos hh] at h
      simp only [List.map_cons, List.mem_cons] at h ⊢
      rcases h with h | h
      · exact Or.inl (Or.inl h)
      · exact Or.inl (Or.inr h)
    · rw [mapSet, if_neg hh] at h
      simp only [List.map_cons, List.mem_cons] at h ⊢
      rcases h with h | h
      · exact Or.inl (Or.inl h)
      · rcases ih h with h' | h'
        · exact Or.inl (Or.inr h')
        · exact Or.inr h'

theorem keysOf_mapSet_nodup (m : List (String × ValueType)) (k : String) (v : ValueType)
    (hnd : (m.map Prod.fst).Nodup) : ((mapSet m k v).map Prod.fst).Nodup := by
  induction m with
  | nil => simp [mapSet]
  | cons hd tl ih =>
    obtain ⟨a, w⟩ := hd
    simp only [List.map_cons, List.nodup_cons] at hnd
    by_cases hh : a = k
    · rw [mapSet, if_pos hh]
      simp only [List.map_cons, List.nodup_cons]
      exact hnd
    · rw [mapSet, if_neg hh]
      simp only [List.map_cons, List.nodup_cons]
      refine ⟨fun hmem => ?_, ih hnd.2⟩
      rcases keysOf_mapSet_mem tl k v a hmem with h' | h'
      · exact hnd.1 h'
      · exact hh h'

theorem keysOf_mapDel_mem (m : List (String × ValueType)) (k : String)
    (x : String) (h : x ∈ (mapDel m k).map Prod.fst) : x ∈ m.map Prod.fst := by
  induction m with
  | nil => simpa [mapDel] using h
  | cons hd tl ih =>
    obtain ⟨a, w⟩ := hd
    by_cases hh : a = k
    · rw [mapDel, if_pos hh] at h
      simp [h]
    · rw [mapDel, if_neg hh] at h
      simp only [List.map_cons, List.mem_cons] at h ⊢
      rcases h with h | h
      · exact Or.inl h
      · exact Or.inr (ih h)

theorem keysOf_mapDel_nodup (m : List (String × ValueType)) (k : String)
    (hnd : (m.map Prod.fst).Nodup) : ((mapDel m k).map Prod.fst).Nodup := by
  induction m with
  | nil => simpa [mapDel] using hnd
  | cons hd tl ih =>
    obtain ⟨a, w⟩ := hd
    simp only [List.map_cons, List.nodup_cons] at hnd
    by_cases hh : a = k
    · rw [mapDel, if_pos hh]
      exact hnd.2
    · rw [mapDel, if_neg hh]
      simp only [List.map_cons, List.nodup_cons]
      exact ⟨fun hmem => hnd.1 (keysOf_mapDel_mem tl k a hmem), ih hnd.2⟩

theorem payload_ne_of_distinct_keys (m : List (String × ValueType)) (k1 k2 : String)
    (t1 t2 : Int) (p1 p2 : Nat) (hnd : (payloadsOf m).Nodup)
    (h1 : mapGet m k1 = some (t1, some p1)) (h2 : mapGet m k2 = some (t2, some p2))
    (hk : k1 ≠ k2) : p1 ≠ p2 := by
  induction m with
  | nil => simp [mapGet] at h1
  | cons hd tl ih =>
    obtain ⟨a, v⟩ := hd
    simp only [mapGet] at h1 h2
    rw [payloadsOf_cons] at hnd
    by_cases ha1 : a = k1
    · rw [if_pos ha1] at h1
      cases h1
      rw [if_neg (fun hh : a = k2 => hk (ha1 ▸ hh ▸ rfl))] at h2
      have hp2 : p2 ∈ payloadsOf tl := mem_payloadsOf_of_mapGet tl k2 t2 p2 h2
      simp only [Option.toList_some, List.singleton_append, List.nodup_cons] at hnd
      exact fun he => hnd.1 (he ▸ hp2)
    · rw [if_neg ha1] at h1
      by_cases ha2 : a = k2
      · rw [if_pos ha2] at h2
        cases h2
        have hp1 : p1 ∈ payloadsOf tl := mem_payloadsOf_of_mapGet tl k1 t1 p1 h1
        simp only [Option.toList_some, List.singleton_append, List.nodup_cons] at hnd
        exact fun he => hnd.1 (he ▸ hp1)
      · rw [if_neg ha2] at h2
        exact ih hnd.of_append_right h1 h2

/-! ## Shape lemmas for the controller operations -/

theorem acquire_absent (st : Ctrl) (k : String) (pe hm : Bool)
    (h : mapGet st.entity.cache k = none) :
    st.acquire k pe hm =
      (⟨⟨mapSet st.entity.cache k (1, some st.nextId)⟩, st.nextId + 1, st.events⟩,
       some st.nextId) := by
  unfold Ctrl.acquire Entity.update
  simp only [joinPath, h]
  simp [Entity.get, joinPath, mapGet_mapSet_self]

theorem acquire_present_live (st : Ctrl) (k : String) (pe hm : Bool) (t : Int) (p : Nat)
    (h : mapGet st.entity.cache k = some (t, some p)) (hh : (!pe && hm) = false) :
    st.acquire k pe hm =
      (⟨⟨mapSet st.entity.cache k (t + 1, some p)⟩, st.nextId, st.events⟩, some p) := by
  cases pe with
  | false =>
    cases hm with
    | false =>
      unfold Ctrl.acquire Entity.update
      simp only [joinPath, h]
      simp [Entity.get, joinPath, mapGet_mapSet_self]
    | true => exact absurd hh (by simp)
  | true =>
    cases hm with
    | false =>
      unfold Ctrl.acquire Entity.update
      simp only [joinPath, h]
      simp [Entity.get, joinPath, mapGet_mapSet_self]
    | true =>
      unfold Ctrl.acquire Entity.update
      simp only [joinPath, h]
      simp [Entity.get, joinPath, mapGet_mapSet_self]

theorem acquire_present_hmr (st : Ctrl) (k : String) (t : Int) (p : Nat)
    (h : mapGet st.entity.cache k = some (t, some p)) :
    st.acquire k false true =
      (⟨⟨mapSet st.entity.cache k (t + 1, some st.nextId)⟩, st.nextId + 1,
        st.events ++ [⟨some p, true, st.entity⟩]⟩, some st.nextId) := by
  unfold Ctrl.acquire Entity.update
  simp only [joinPath, h]
  simp [Entity.get, joinPath, mapGet_mapSet_self]

theorem acquire_present_undef (st : Ctrl) (k : String) (pe hm : Bool) (t : Int)
    (h : mapGet st.entity.cache k = some (t, none)) :
    st.acquire k pe hm =
      (⟨⟨mapSet st.entity.cache k (t + 1, some st.nextId)⟩, st.nextId + 1, st.events⟩,
       some st.nextId) := by
  unfold Ctrl.acquire Entity.update
  simp only [joinPath, h]
  simp [Entity.get, joinPath, mapGet_mapSet_self]

theorem clearCache_absent (st : Ctrl) (k : String)
    (h : mapGet st.entity.cache k = none) :
    st.clearCache k = ⟨⟨mapSet st.entity.cache k (-1, none)⟩, st.nextId, st.events⟩ := by
  unfold Ctrl.clearCache Entity.update
  simp only [joinPath, h]
  norm_num

theorem clearCache_pos (st : Ctrl) (k : String) (t : Int) (po : Option Nat)
    (h : mapGet st.entity.cache k = some (t, po)) (ht : t ≠ 1) :
    st.clearCache k = ⟨⟨mapSet st.entity.cache k (t - 1, po)⟩, st.nextId, st.events⟩ := by
  unfold Ctrl.clearCache Entity.update
  simp only [joinPath, h]
  have : ¬(t - 1 = 0) := fun hc => ht (by omega)
  simp [this]

theorem clearCache_one (st : Ctrl) (k : String) (po : Option Nat)
    (h : mapGet st.entity.cache k = some (1, po)) :
    st.clearCache k =
      ⟨⟨mapDel st.entity.cache k⟩, st.nextId, st.events ++ [⟨po, false, st.entity⟩]⟩ := by
  unfold Ctrl.clearCache Entity.update
  simp only [joinPath, h]
  norm_num

/-! ## Controller invariant preservation -/

theorem ctrlInv_fresh : CtrlInv Ctrl.fresh := by
  refine ⟨by simp [Ctrl.fresh], ?_, ?_⟩ <;>
    simp [Ctrl.fresh, entityPayloads, payloadsOf]

theorem ctrlInv_acquire (st : Ctrl) (k : String) (pe hm : Bool) (hinv : CtrlInv st) :
    CtrlInv (st.acquire k pe hm).1 := by
  obtain ⟨hk, hb, hp⟩ := hinv
  cases hg : mapGet st.entity.cache k with
  | none =>
    rw [acquire_absent st k pe hm hg]
    refine ⟨keysOf_mapSet_nodup _ _ _ hk, ?_, ?_⟩
    · intro q hq
      rcases payloadsOf_mapSet_mem _ _ _ _ q hq with h' | h'
      · exact Nat.lt_trans (hb q h') (Nat.lt_succ_self _)
      · cases h'; exact Nat.lt_succ_self _
    · exact payloadsOf_mapSet_nodup _ _ _ _ hp
        (fun q hq hmem => by cases hq; exact absurd (hb _ hmem) (Nat.lt_irrefl _))
  | some v =>
    obtain ⟨t, po⟩ := v
    cases po with
    | none =>
      rw [acquire_present_undef st k pe hm t hg]
      refine ⟨keysOf_mapSet_nodup _ _ _ hk, ?_, ?_⟩
      · intro q hq
        rcases payloadsOf_mapSet_mem _ _ _ _ q hq with h' | h'
        · exact Nat.lt_trans (hb q h') (Nat.lt_succ_self _)
        · cases h'; exact Nat.lt_succ_self _
      · exact payloadsOf_mapSet_nodup _ _ _ _ hp
          (fun q hq hmem => by cases hq; exact absurd (hb _ hmem) (Nat.lt_irrefl _))
    | some p =>
      by_cases hcond : (!pe && hm) = true
      · have hpe : pe = false := by cases pe <;> simp_all
        have hhm : hm = true := by cases pe <;> cases hm <;> simp_all
        subst hpe; subst hhm
        rw [acquire_present_hmr st k t p hg]
        refine ⟨keysOf_mapSet_nodup _ _ _ hk, ?_, ?_⟩
        · intro q hq
          rcases payloadsOf_mapSet_mem _ _ _ _ q hq with h' | h'
          · exact Nat.lt_trans (hb q h') (Nat.lt_succ_self _)
          · cases h'; exact Nat.lt_succ_self _
        · exact payloadsOf_mapSet_nodup _ _ _ _ hp
            (fun q hq hmem => by cases hq; exact absurd (hb _ hmem) (Nat.lt_irrefl _))
      · rw [acquire_present_live st k pe hm t p hg (by simpa using hcond)]
        refine ⟨keysOf_mapSet_nodup _ _ _ hk, ?_, ?_⟩
        · intro q hq
          have : payloadsOf (mapSet st.entity.cache k (t + 1, some p)) =
              payloadsOf st.entity.cache := payloadsOf_mapSet_same _ _ _ _ _ hg
          rw [entityPayloads] at hq
          simp only [this] at hq
          exact hb q hq
        · have : payloadsOf (mapSet st.entity.cache k (t + 1, some p)) =
              payloadsOf st.entity.cache := payloadsOf_mapSet_same _ _ _ _ _ hg
          rw [entityPayloads]
          simp only [this]
          exact hp

theorem ctrlInv_clearCache (st : Ctrl) (k : String) (hinv : CtrlInv st) :
    CtrlInv (st.clearCache k) := by
  obtain ⟨hk, hb, hp⟩ := hinv
  cases hg : mapGet st.entity.cache k with
  | none =>
    rw [clearCache_absent st k hg]
    refine ⟨keysOf_mapSet_nodup _ _ _ hk, ?_, ?_⟩
    · intro q hq
      rcases payloadsOf_mapSet_mem _ _ _ _ q hq with h' | h'
      · exact hb q h'
      · exact absurd h' (by simp)
    · exact payloadsOf_mapSet_nodup _ _ _ _ hp (fun q hq => by cases hq)
  | some v =>
    obtain ⟨t, po⟩ := v
    by_cases ht : t = 1
    · subst ht
      rw [clearCache_one st k po hg]
      refine ⟨keysOf_mapDel_nodup _ _ hk, ?_, payloadsOf_mapDel_nodup _ _ hp⟩
      intro q hq
      exact hb q (payloadsOf_mapDel_mem _ _ q hq)
    · rw [clearCache_pos st k t po hg ht]
      refine ⟨keysOf_mapSet_nodup _ _ _ hk, ?_, ?_⟩
      · intro q hq
        have : payloadsOf (mapSet st.entity.cache k (t - 1, po)) =
            payloadsOf st.entity.cache := payloadsOf_mapSet_same _ _ _ _ _ hg
        rw [entityPayloads] at hq
        simp only [this] at hq
        exact hb q hq
      · have : payloadsOf (mapSet st.entity.cache k (t - 1, po)) =
            payloadsOf st.entity.cache := payloadsOf_mapSet_same _ _ _ _ _ hg
        rw [entityPayloads]
        simp only [this]
        exact hp

/-! ## Claim C9: key normalization in the Cache Entity -/

/-- C9: a key given as a list of segments and the single string obtained by
joining the segments with the `%` delimiter address the same slot of the
Cache Entity: `get` agrees on both spellings, `update` performs the same map
transition for both, two lists with coinciding joins alias the same entry,
and in particular `["a%b"]` and `["a", "b"]` join to the same path. -/
theorem c9_entity_key_aliasing :
    (∀ (e : Entity) (ks : List String),
        Entity.get e (CacheKeys.arr ks)
          = Entity.get e (CacheKeys.str (String.intercalate SPLIT ks)))
    ∧ (∀ (ε : Type) (e : Entity) (ks : List String)
          (fn : Option ValueType → Option ValueType × ε),
        Entity.update e (CacheKeys.arr ks) fn
          = Entity.update e (CacheKeys.str (String.intercalate SPLIT ks)) fn)
    ∧ (∀ (ε : Type) (e : Entity) (ks1 ks2 : List String)
          (fn : Option ValueType → Option ValueType × ε),
        String.intercalate SPLIT ks1 = String.intercalate SPLIT ks2 →
          Entity.update e (CacheKeys.arr ks1) fn = Entity.update e (CacheKeys.arr ks2) fn)
    ∧ String.intercalate SPLIT ["a%b"] = String.intercalate SPLIT ["a", "b"] := by
  refine ⟨fun e ks => rfl, fun ε e ks fn => rfl, fun ε e ks1 ks2 fn h => ?_, by decide⟩
  unfold Entity.update
  simp only [joinPath, h]

/-- C9 witness: the aliasing conjunct applied to the two concrete segment
lists `["a%b"]` and `["a", "b"]`, whose joins coincide. -/
theorem c9_entity_key_aliasing_witness :
    Entity.update (⟨[]⟩ : Entity) (CacheKeys.arr ["a%b"]) (fun v => (v, ()))
      = Entity.update (⟨[]⟩ : Entity) (CacheKeys.arr ["a", "b"]) (fun v => (v, ())) :=
  c9_entity_key_aliasing.2.2.1 Unit ⟨[]⟩ ["a%b"] ["a", "b"] (fun v => (v, ()))
    c9_entity_key_aliasing.2.2.2

/-! ## Claim C10: release of a key with no stored entry -/

/-- C10: running the release path (`clearCache`) on a key that has no stored
entry does not invoke disposal and does not leave the map unchanged: the
missing entry defaults to count `0`, the decrement yields `-1 ≠ 0`, and the
non-null pair `[-1, undefined]` is written back under that key. -/
theorem c10_release_absent_creates_entry (st : Ctrl) (k : String)
    (h : Entity.get st.entity (CacheKeys.str k) = none) :
    Entity.get (st.clearCache k).entity (CacheKeys.str k) = some (-1, none) ∧
    (st.clearCache k).events = st.events := by
  have hg : mapGet st.entity.cache k = none := h
  rw [clearCache_absent st k hg]
  exact ⟨mapGet_mapSet_self _ _ _, rfl⟩

/-- C10 witness: releasing the key `"zz"` on a fresh context creates the
`[-1, undefined]` entry and fires no disposal. -/
theorem c10_release_absent_creates_entry_witness :
    Entity.get (Ctrl.fresh.clearCache "zz").entity (CacheKeys.str "zz") = some (-1, none) ∧
    (Ctrl.fresh.clearCache "zz").events = Ctrl.fresh.events :=
  c10_release_absent_creates_entry Ctrl.fresh "zz" rfl

/-! ## Claim C2: ordering of removal and disposal in the release path -/

/-- C2 counterexample: acquire `"a"` once on a fresh context and release it.
Exactly one disposal fires, with `fromHMR = false`, and a `get` on the entity
as observable while the callback runs (`Entity.update` writes the map only
after the callback returns) still finds the entry `(1, payload 0)` — the
entry is not yet removed when disposal runs, refuting removal-before-disposal. -/
theorem c2_removal_order_counterexample :
    ((Ctrl.fresh.acquire "a" false false).1.clearCache "a").events.map
        (fun ev => (ev.payload, ev.fromHMR, Entity.get ev.snapshot (CacheKeys.str "a")))
      = [(some 0, false, some (1, some 0))] := by
  rfl

/-- C2 amended: in the release path bringing a key's reference count from 1
to 0, the disposal callback runs strictly before the entry is removed from
the map: the disposal event's entity snapshot still contains the entry (a
`get` during disposal returns it), and only the final state has it removed. -/
theorem c2_disposal_before_removal (st : Ctrl) (k : String) (po : Option Nat)
    (h : Entity.get st.entity (CacheKeys.str k) = some (1, po))
    (hnd : (st.entity.cache.map Prod.fst).Nodup) :
    (st.clearCache k).events = st.events ++ [⟨po, false, st.entity⟩] ∧
    Entity.get (DisposalEvent.mk po false st.entity).snapshot (CacheKeys.str k)
      = some (1, po) ∧
    Entity.get (st.clearCache k).entity (CacheKeys.str k) = none := by
  have hg : mapGet st.entity.cache k = some (1, po) := h
  rw [clearCache_one st k po hg]
  exact ⟨rfl, h, mapGet_mapDel_self _ _ hnd⟩

/-- C2 witness: the amended ordering on the concrete one-holder run. -/
theorem c2_disposal_before_removal_witness :
    ((Ctrl.fresh.acquire "a" false false).1.clearCache "a").events
      = (Ctrl.fresh.acquire "a" false false).1.events
        ++ [⟨some 0, false, (Ctrl.fresh.acquire "a" false false).1.entity⟩] ∧
    Entity.get (DisposalEvent.mk (some 0) false
        (Ctrl.fresh.acquire "a" false false).1.entity).snapshot (CacheKeys.str "a")
      = some (1, some 0) ∧
    Entity.get ((Ctrl.fresh.acquire "a" false false).1.clearCache "a").entity
        (CacheKeys.str "a") = none :=
  c2_disposal_before_removal (Ctrl.fresh.acquire "a" false false).1 "a" (some 0)
    rfl (by decide)

/-! ## Claim C8: hot-reload re-acquisition -/

/-- C8: with the hot-reload flag asserted in development mode and an entry
already present at the computed key, re-acquiring invokes the disposal
callback with `forcedByHotReload = true` on the existing payload, recreates
the payload via the factory (allocating a fresh identity), and exposes a
payload distinct by identity from the previous one. -/
theorem c8_hmr_reacquire (st : Ctrl) (k : String) (t : Int) (p : Nat)
    (hinv : CtrlInv st)
    (h : Entity.get st.entity (CacheKeys.str k) = some (t, some p)) :
    (st.acquire k false true).1.events = st.events ++ [⟨some p, true, st.entity⟩] ∧
    (st.acquire k false true).2 = some st.nextId ∧
    (st.acquire k false true).2 ≠ some p ∧
    Entity.get (st.acquire k false true).1.entity (CacheKeys.str k)
      = some (t + 1, some st.nextId) ∧
    (st.acquire k false true).1.nextId = st.nextId + 1 := by
  have hg : mapGet st.entity.cache k = some (t, some p) := h
  have hplt : p < st.nextId :=
    hinv.2.1 p (mem_payloadsOf_of_mapGet st.entity.cache k t p hg)
  rw [acquire_present_hmr st k t p hg]
  refine ⟨rfl, rfl, ?_, ?_, rfl⟩
  · intro hc
    have : st.nextId = p := by injection hc
    exact absurd (this ▸ hplt) (Nat.lt_irrefl _)
  · exact mapGet_mapSet_self _ _ _

/-- C8 witness: re-acquiring `"a"` under hot reload after one normal
acquisition discards payload 0 and exposes the fresh payload 1. -/
theorem c8_hmr_reacquire_witness :
    ((Ctrl.fresh.acquire "a" false false).1.acquire "a" false true).1.events
      = (Ctrl.fresh.acquire "a" false false).1.events
        ++ [⟨some 0, true, (Ctrl.fresh.acquire "a" false false).1.entity⟩] ∧
    ((Ctrl.fresh.acquire "a" false false).1.acquire "a" false true).2 = some 1 ∧
    ((Ctrl.fresh.acquire "a" false false).1.acquire "a" false true).2 ≠ some 0 ∧
    Entity.get ((Ctrl.fresh.acquire "a" false false).1.acquire "a" false true).1.entity
        (CacheKeys.str "a") = some (2, some 1) ∧
    ((Ctrl.fresh.acquire "a" false false).1.acquire "a" false true).1.nextId = 2 := by
  have hinv : CtrlInv (Ctrl.fresh.acquire "a" false false).1 :=
    ctrlInv_acquire Ctrl.fresh "a" false false ctrlInv_fresh
  have h := c8_hmr_reacquire (Ctrl.fresh.acquire "a" false false).1 "a" 1 0 hinv rfl
  exact h

/-! ## Claim C4: N acquisitions followed by N releases -/

theorem acquireN_closed_form (k : String) (i : Nat) :
    acquireN k (i + 1) = ⟨⟨[(k, ((i : Int) + 1, some 0))]⟩, 1, []⟩ := by
  induction i with
  | zero =>
    show ((Ctrl.fresh).acquire k false false).1 = _
    rw [acquire_absent Ctrl.fresh k false false rfl]
    simp [Ctrl.fresh, mapSet]
  | succ j ih =>
    show ((acquireN k (j + 1)).acquire k false false).1 = _
    rw [ih]
    rw [acquire_present_live ⟨⟨[(k, ((j : Int) + 1, some 0))]⟩, 1, []⟩ k false false
      ((j : Int) + 1) 0 (by simp [mapGet]) (by simp)]
    simp [mapSet]

theorem release_decrement (k : String) (c : Int) (nid : Nat) (evs : List DisposalEvent)
    (hc : c ≠ 1) :
    Ctrl.clearCache ⟨⟨[(k, (c, some 0))]⟩, nid, evs⟩ k
      = ⟨⟨[(k, (c - 1, some 0))]⟩, nid, evs⟩ := by
  rw [clearCache_pos ⟨⟨[(k, (c, some 0))]⟩, nid, evs⟩ k c (some 0) (by simp [mapGet]) hc]
  simp [mapSet]

theorem release_toZero (k : String) (nid : Nat) (evs : List DisposalEvent) :
    Ctrl.clearCache ⟨⟨[(k, (1, some 0))]⟩, nid, evs⟩ k
      = ⟨⟨[]⟩, nid, evs ++ [⟨some 0, false, ⟨[(k, (1, some 0))]⟩⟩]⟩ := by
  rw [clearCache_one ⟨⟨[(k, (1, some 0))]⟩, nid, evs⟩ k (some 0) (by simp [mapGet])]
  simp [mapDel]

theorem releaseN_midway (k : String) (N : Nat) (hN : 1 ≤ N) (j : Nat) (hj : j < N) :
    releaseN k (acquireN k N) j = ⟨⟨[(k, ((N : Int) - j, some 0))]⟩, 1, []⟩ := by
  induction j with
  | zero =>
    obtain ⟨i, rfl⟩ : ∃ i, N = i + 1 := ⟨N - 1, by omega⟩
    show acquireN k (i + 1) = _
    rw [acquireN_closed_form]
    simp
  | succ j ih =>
    show (releaseN k (acquireN k N) j).clearCache k = _
    rw [ih (by omega)]
    rw [release_decrement k ((N : Int) - j) 1 [] (by omega)]
    congr 3
    push_cast
    ring

/-- C4: for any key and any `N ≥ 1`, `N` acquisitions (the first creating the
entry with refCount 1 via the factory, each further one incrementing the
stored refCount) followed by `N` releases through the release path bring the
refCount to 0, delete the entry, and invoke the disposal callback exactly
once, with `forcedByHotReload = false`, synchronously during the release that
reaches 0 (no disposal is logged before it); the factory ran exactly once
(exactly one identity was allocated). -/
theorem c4_refcount_lifecycle (k : String) (N : Nat) (hN : 1 ≤ N) :
    acquireN k N = ⟨⟨[(k, ((N : Int), some 0))]⟩, 1, []⟩ ∧
    (∀ j, j < N → releaseN k (acquireN k N) j = ⟨⟨[(k, ((N : Int) - j, some 0))]⟩, 1, []⟩) ∧
    releaseN k (acquireN k N) N
      = ⟨⟨[]⟩, 1, [⟨some 0, false, ⟨[(k, (1, some 0))]⟩⟩]⟩ := by
  refine ⟨?_, fun j hj => releaseN_midway k N hN j hj, ?_⟩
  · obtain ⟨i, rfl⟩ : ∃ i, N = i + 1 := ⟨N - 1, by omega⟩
    rw [acquireN_closed_form]
    norm_num
  · obtain ⟨j, rfl⟩ : ∃ j, N = j + 1 := ⟨N - 1, by omega⟩
    show (releaseN k (acquireN k (j + 1)) j).clearCache k = _
    rw [releaseN_midway k (j + 1) hN j (by omega)]
    rw [show (((j + 1 : Nat) : Int) - (j : Nat)) = 1 by push_cast; ring]
    exact release_toZero k 1 []

/-- C4 witness: two acquisitions and two releases of `"x"`. -/
theorem c4_refcount_lifecycle_witness :
    acquireN "x" 2 = ⟨⟨[("x", ((2 : Int), some 0))]⟩, 1, []⟩ ∧
    releaseN "x" (acquireN "x" 2) 2
      = ⟨⟨[]⟩, 1, [⟨some 0, false, ⟨[("x", (1, some 0))]⟩⟩]⟩ :=
  ⟨(c4_refcount_lifecycle "x" 2 (by omega)).1,
   (c4_refcount_lifecycle "x" 2 (by omega)).2.2⟩

/-! ## Claim C7: factory-once and payload sharing -/

theorem acquire_noHMR_cond (pe : Bool) : (!pe && false) = false := by
  cases pe <;> rfl

/-- C7: while a reference is held, the factory runs at most once per computed
key: a second acquisition of the same key exposes the same payload identity,
allocates nothing (the factory is not invoked), fires no disposal, and only
increments the stored reference count; and two acquisitions with different
computed keys never expose the same payload identity. -/
theorem c7_payload_sharing :
    (∀ (st : Ctrl) (k : String) (pe : Bool),
        ((st.acquire k pe false).1.acquire k pe false).2 = (st.acquire k pe false).2 ∧
        ((st.acquire k pe false).1.acquire k pe false).1.nextId
          = (st.acquire k pe false).1.nextId ∧
        ((st.acquire k pe false).1.acquire k pe false).1.events
          = (st.acquire k pe false).1.events ∧
        Entity.get ((st.acquire k pe false).1.acquire k pe false).1.entity (CacheKeys.str k)
          = (Entity.get (st.acquire k pe false).1.entity (CacheKeys.str k)).map
              (fun v => (v.1 + 1, v.2)))
    ∧ (∀ (st : Ctrl) (k1 k2 : String) (pe : Bool) (p1 p2 : Nat),
        CtrlInv st → k1 ≠ k2 →
        (st.acquire k1 pe false).2 = some p1 →
        ((st.acquire k1 pe false).1.acquire k2 pe false).2 = some p2 →
        p1 ≠ p2) := by
  constructor
  · intro st k pe
    cases hg : mapGet st.entity.cache k with
    | none =>
      rw [acquire_absent st k pe false hg]
      rw [acquire_present_live ⟨⟨mapSet st.entity.cache k (1, some st.nextId)⟩,
        st.nextId + 1, st.events⟩ k pe false 1 st.nextId
        (mapGet_mapSet_self _ _ _) (acquire_noHMR_cond pe)]
      refine ⟨rfl, rfl, rfl, ?_⟩
      show Entity.get ⟨mapSet (mapSet st.entity.cache k (1, some st.nextId)) k
          (1 + 1, some st.nextId)⟩ (CacheKeys.str k)
        = (Entity.get ⟨mapSet st.entity.cache k (1, some st.nextId)⟩ (CacheKeys.str k)).map
            (fun v => (v.1 + 1, v.2))
      rw [show Entity.get ⟨mapSet st.entity.cache k (1, some st.nextId)⟩ (CacheKeys.str k)
        = some (1, some st.nextId) from mapGet_mapSet_self _ _ _]
      rw [show Entity.get ⟨mapSet (mapSet st.entity.cache k (1, some st.nextId)) k
          (1 + 1, some st.nextId)⟩ (CacheKeys.str k)
        = some (1 + 1, some st.nextId) from mapGet_mapSet_self _ _ _]
      rfl
    | some v =>
      obtain ⟨t, po⟩ := v
      cases po with
      | some p =>
        rw [acquire_present_live st k pe false t p hg (acquire_noHMR_cond pe)]
        rw [acquire_present_live ⟨⟨mapSet st.entity.cache k (t + 1, some p)⟩,
          st.nextId, st.events⟩ k pe false (t + 1) p
          (mapGet_mapSet_self _ _ _) (acquire_noHMR_cond pe)]
        refine ⟨rfl, rfl, rfl, ?_⟩
        show Entity.get ⟨mapSet (mapSet st.entity.cache k (t + 1, some p)) k
            (t + 1 + 1, some p)⟩ (CacheKeys.str k)
          = (Entity.get ⟨mapSet st.entity.cache k (t + 1, some p)⟩ (CacheKeys.str k)).map
              (fun v => (v.1 + 1, v.2))
        rw [show Entity.get ⟨mapSet st.entity.cache k (t + 1, some p)⟩ (CacheKeys.str k)
          = some (t + 1, some p) from mapGet_mapSet_self _ _ _]
        rw [show Entity.get ⟨mapSet (mapSet st.entity.cache k (t + 1, some p)) k
            (t + 1 + 1, some p)⟩ (CacheKeys.str k)
          = some (t + 1 + 1, some p) from mapGet_mapSet_self _ _ _]
        rfl
      | none =>
        rw [acquire_present_undef st k pe false t hg]
        rw [acquire_present_live ⟨⟨mapSet st.entity.cache k (t + 1, some st.nextId)⟩,
          st.nextId + 1, st.events⟩ k pe false (t + 1) st.nextId
          (mapGet_mapSet_self _ _ _) (acquire_noHMR_cond pe)]
        refine ⟨rfl, rfl, rfl, ?_⟩
        show Entity.get ⟨mapSet (mapSet st.entity.cache k (t + 1, some st.nextId)) k
            (t + 1 + 1, some st.nextId)⟩ (CacheKeys.str k)
          = (Entity.get ⟨mapSet st.entity.cache k (t + 1, some st.nextId)⟩
              (CacheKeys.str k)).map (fun v => (v.1 + 1, v.2))
        rw [show Entity.get ⟨mapSet st.entity.cache k (t + 1, some st.nextId)⟩ (CacheKeys.str k)
          = some (t + 1, some st.nextId) from mapGet_mapSet_self _ _ _]
        rw [show Entity.get ⟨mapSet (mapSet st.entity.cache k (t + 1, some st.nextId)) k
            (t + 1 + 1, some st.nextId)⟩ (CacheKeys.str k)
          = some (t + 1 + 1, some st.nextId) from mapGet_mapSet_self _ _ _]
        rfl
  · intro st k1 k2 pe p1 p2 hinv hk h1 h2
    have hnd := hinv.2.2
    have hbound := hinv.2.1
    cases hg1 : mapGet st.entity.cache k1 with
    | none =>
      rw [acquire_absent st k1 pe false hg1] at h1 h2
      have hp1 : p1 = st.nextId := by injection h1 with h1'; exact h1'.symm
      have hg2 : mapGet (mapSet st.entity.cache k1 (1, some st.nextId)) k2
          = mapGet st.entity.cache k2 := mapGet_mapSet_ne _ _ _ _ (Ne.symm hk)
      cases hg2' : mapGet st.entity.cache k2 with
      | none =>
        rw [acquire_absent ⟨⟨mapSet st.entity.cache k1 (1, some st.nextId)⟩,
          st.nextId + 1, st.events⟩ k2 pe false (by rw [hg2, hg2'])] at h2
        have hp2 : p2 = st.nextId + 1 := by injection h2 with h2'; exact h2'.symm
        omega
      | some w =>
        obtain ⟨t2, po2⟩ := w
        cases po2 with
        | some q =>
          rw [acquire_present_live ⟨⟨mapSet st.entity.cache k1 (1, some st.nextId)⟩,
            st.nextId + 1, st.events⟩ k2 pe false t2 q (by rw [hg2, hg2'])
            (acquire_noHMR_cond pe)] at h2
          have hp2 : p2 = q := by injection h2 with h2'; exact h2'.symm
          have hq : q < st.nextId :=
            hbound q (mem_payloadsOf_of_mapGet st.entity.cache k2 t2 q hg2')
          omega
        | none =>
          rw [acquire_present_undef ⟨⟨mapSet st.entity.cache k1 (1, some st.nextId)⟩,
            st.nextId + 1, st.events⟩ k2 pe false t2 (by rw [hg2, hg2'])] at h2
          have hp2 : p2 = st.nextId + 1 := by injection h2 with h2'; exact h2'.symm
          omega
    | some v =>
      obtain ⟨t1, po1⟩ := v
      cases po1 with
      | some p =>
        rw [acquire_present_live st k1 pe false t1 p hg1 (acquire_noHMR_cond pe)] at h1 h2
        have hp1 : p1 = p := by injection h1 with h1'; exact h1'.symm
        have hpb : p < st.nextId :=
          hbound p (mem_payloadsOf_of_mapGet st.entity.cache k1 t1 p hg1)
        have hg2 : mapGet (mapSet st.entity.cache k1 (t1 + 1, some p)) k2
            = mapGet st.entity.cache k2 := mapGet_mapSet_ne _ _ _ _ (Ne.symm hk)
        cases hg2' : mapGet st.entity.cache k2 with
        | none =>
          rw [acquire_absent ⟨⟨mapSet st.entity.cache k1 (t1 + 1, some p)⟩,
            st.nextId, st.events⟩ k2 pe false (by rw [hg2, hg2'])] at h2
          have hp2 : p2 = st.nextId := by injection h2 with h2'; exact h2'.symm
          omega
        | some w =>
          obtain ⟨t2, po2⟩ := w
          cases po2 with
          | some q =>
            rw [acquire_present_live ⟨⟨mapSet st.entity.cache k1 (t1 + 1, some p)⟩,
              st.nextId, st.events⟩ k2 pe false t2 q (by rw [hg2, hg2'])
              (acquire_noHMR_cond pe)] at h2
            have hp2 : p2 = q := by injection h2 with h2'; exact h2'.symm
            have := payload_ne_of_distinct_keys st.entity.cache k1 k2 t1 t2 p q
              hnd hg1 hg2' hk
            omega
          | none =>
            rw [acquire_present_undef ⟨⟨mapSet st.entity.cache k1 (t1 + 1, some p)⟩,
              st.nextId, st.events⟩ k2 pe false t2 (by rw [hg2, hg2'])] at h2
            have hp2 : p2 = st.nextId := by injection h2 with h2'; exact h2'.symm
            omega
      | none =>
        rw [acquire_present_undef st k1 pe false t1 hg1] at h1 h2
        have hp1 : p1 = st.nextId := by injection h1 with h1'; exact h1'.symm
        have hg2 : mapGet (mapSet st.entity.cache k1 (t1 + 1, some st.nextId)) k2
            = mapGet st.entity.cache k2 := mapGet_mapSet_ne _ _ _ _ (Ne.symm hk)
        cases hg2' : mapGet st.entity.cache k2 with
        | none =>
          rw [acquire_absent ⟨⟨mapSet st.entity.cache k1 (t1 + 1, some st.nextId)⟩,
            st.nextId + 1, st.events⟩ k2 pe false (by rw [hg2, hg2'])] at h2
          have hp2 : p2 = st.nextId + 1 := by injection h2 with h2'; exact h2'.symm
          omega
        | some w =>
          obtain ⟨t2, po2⟩ := w
          cases po2 with
          | some q =>
            rw [acquire_present_live ⟨⟨mapSet st.entity.cache k1 (t1 + 1, some st.nextId)⟩,
              st.nextId + 1, st.events⟩ k2 pe false t2 q (by rw [hg2, hg2'])
              (acquire_noHMR_cond pe)] at h2
            have hp2 : p2 = q := by injection h2 with h2'; exact h2'.symm
            have hq : q < st.nextId :=
              hbound q (mem_payloadsOf_of_mapGet st.entity.cache k2 t2 q hg2')
            omega
          | none =>
            rw [acquire_present_undef ⟨⟨mapSet st.entity.cache k1 (t1 + 1, some st.nextId)⟩,
              st.nextId + 1, st.events⟩ k2 pe false t2 (by rw [hg2, hg2'])] at h2
            have hp2 : p2 = st.nextId + 1 := by injection h2 with h2'; exact h2'.symm
            omega

/-- C7 witness: on a fresh context, acquiring `"a"` then `"b"` yields the
distinct payload identities 0 and 1; re-acquiring `"a"` shares payload 0. -/
theorem c7_payload_sharing_witness :
    ((Ctrl.fresh.acquire "a" false false).1.acquire "a" false false).2
      = (Ctrl.fresh.acquire "a" false false).2 ∧
    (0 : Nat) ≠ (1 : Nat) := by
  refine ⟨(c7_payload_sharing.1 Ctrl.fresh "a" false).1, ?_⟩
  exact c7_payload_sharing.2 Ctrl.fresh "a" "b" false 0 1 ctrlInv_fresh
    (by decide) rfl rfl

/-! ## Basic lemmas about the trie -/

theorem lookup_setEntry_self : ∀ (m : TMap) (d : Nat) (n : TNode),
    (m.setEntry d n).lookup d = some n
  | .nil, d, n => by simp [TMap.setEntry, TMap.lookup]
  | .cons k nn rest, d, n => by
    by_cases h : k = d
    · simp [TMap.setEntry, TMap.lookup, h]
    · simp only [TMap.setEntry, if_neg h, TMap.lookup, if_neg h]
      exact lookup_setEntry_self rest d n

theorem lookup_setEntry_ne : ∀ (m : TMap) (d d' : Nat) (n : TNode), d' ≠ d →
    (m.setEntry d n).lookup d' = m.lookup d'
  | .nil, d, d', n, h => by
    simp [TMap.setEntry, TMap.lookup, Ne.symm h]
  | .cons k nn rest, d, d', n, h => by
    by_cases hk : k = d
    · subst hk
      simp [TMap.setEntry, TMap.lookup, Ne.symm h]
    · by_cases hk' : k = d'
      · simp [TMap.setEntry, TMap.lookup, hk, hk', h]
      · simp only [TMap.setEntry, if_neg hk, TMap.lookup, if_neg hk']
        exact lookup_setEntry_ne rest d d' n h

theorem lookup_eraseKey_ne : ∀ (m : TMap) (d d' : Nat), d' ≠ d →
    (m.eraseKey d).lookup d' = m.lookup d'
  | .nil, d, d', h => by simp [TMap.eraseKey]
  | .cons k nn rest, d, d', h => by
    by_cases hk : k = d
    · subst hk
      simp [TMap.eraseKey, TMap.lookup, Ne.symm h]
    · by_cases hk' : k = d'
      · simp [TMap.eraseKey, TMap.lookup, hk, hk', h]
      · simp only [TMap.eraseKey, if_neg hk, TMap.lookup, if_neg hk']
        exact lookup_eraseKey_ne rest d d' h

theorem eraseKey_of_lookup_none : ∀ (m : TMap) (d : Nat), m.lookup d = none →
    m.eraseKey d = m
  | .nil, d, _ => rfl
  | .cons k nn rest, d, h => by
    simp only [TMap.lookup] at h
    by_cases hk : k = d
    · rw [if_pos hk] at h; exact absurd h (by simp)
    · rw [if_neg hk] at h
      simp only [TMap.eraseKey, if_neg hk]
      rw [eraseKey_of_lookup_none rest d h]

theorem setEntry_not_isNil : ∀ (m : TMap) (d : Nat) (n : TNode),
    (m.setEntry d n).isNil = false
  | .nil, d, n => rfl
  | .cons k nn rest, d, n => by
    by_cases h : k = d <;> simp [TMap.setEntry, h, TMap.isNil]

theorem good_cons_iff (k : Nat) (n : TNode) (rest : TMap) :
    (TMap.cons k n rest).good = true ↔
      n.good = true ∧ rest.lookup k = none ∧ rest.good = true := by
  show (n.good && (rest.lookup k).isNone && rest.good) = true ↔ _
  rw [Bool.and_assoc]
  simp [Option.isNone_iff_eq_none]

theorem good_node_cases (n : TNode) (h : n.good = true) :
    (∃ v, n = TNode.mk none (some v)) ∨
    (∃ mm, n = TNode.mk (some mm) none ∧ mm.isNil = false ∧ mm.good = true) := by
  obtain ⟨m, v⟩ := n
  cases m with
  | none =>
    cases v with
    | none => exact absurd h (by simp [TNode.good])
    | some vv => exact Or.inl ⟨vv, rfl⟩
  | some mm =>
    cases v with
    | none =>
      simp only [TNode.good, Bool.and_eq_true] at h
      exact Or.inr ⟨mm, rfl, by simpa using h.1, h.2⟩
    | some vv => exact absurd h (by simp [TNode.good])

theorem good_setEntry : ∀ (m : TMap) (d : Nat) (n : TNode),
    m.good = true → n.good = true → (m.setEntry d n).good = true
  | .nil, d, n, _, hn => by simp [TMap.setEntry, good_cons_iff, hn, TMap.lookup, TMap.good]
  | .cons k nn rest, d, n, hm, hn => by
    rw [good_cons_iff] at hm
    by_cases h : k = d
    · subst h
      rw [show (TMap.cons k nn rest).setEntry k n = TMap.cons k n rest from by
        simp [TMap.setEntry]]
      rw [good_cons_iff]
      exact ⟨hn, hm.2.1, hm.2.2⟩
    · simp only [TMap.setEntry, if_neg h]
      rw [good_cons_iff]
      refine ⟨hm.1, ?_, good_setEntry rest d n hm.2.2 hn⟩
      rw [lookup_setEntry_ne rest d k n (fun hh => h hh)]
      exact hm.2.1

theorem good_eraseKey : ∀ (m : TMap) (d : Nat),
    m.good = true → (m.eraseKey d).good = true
  | .nil, d, _ => rfl
  | .cons k nn rest, d, hm => by
    rw [good_cons_iff] at hm
    by_cases h : k = d
    · simp only [TMap.eraseKey, if_pos h]
      exact hm.2.2
    · simp only [TMap.eraseKey, if_neg h]
      rw [good_cons_iff]
      refine ⟨hm.1, ?_, good_eraseKey rest d hm.2.2⟩
      rw [lookup_eraseKey_ne rest d k (fun hh => h hh)]
      exact hm.2.1

theorem lookup_eraseKey_self : ∀ (m : TMap) (d : Nat),
    m.good = true → (m.eraseKey d).lookup d = none
  | .nil, d, _ => rfl
  | .cons k nn rest, d, hm => by
    rw [good_cons_iff] at hm
    by_cases h : k = d
    · subst h
      rw [show (TMap.cons k nn rest).eraseKey k = rest from by simp [TMap.eraseKey]]
      exact hm.2.1
    · simp only [TMap.eraseKey, if_neg h, TMap.lookup, if_neg h]
      exact lookup_eraseKey_self rest d hm.2.2

/-! ## Lemmas about leaf paths -/

theorem leaves_nil : TMap.nil.leaves = [] := rfl

theorem leaves_cons (k : Nat) (n : TNode) (rest : TMap) :
    (TMap.cons k n rest).leaves = (n.leaves).map (fun p => k :: p) ++ rest.leaves := rfl

theorem leaves_mk_none_none : (TNode.mk none none).leaves = [] := rfl

theorem leaves_mk_some_none (mm : TMap) : (TNode.mk (some mm) none).leaves = mm.leaves := rfl

theorem leaves_mk_none_some (v : Nat × Nat) : (TNode.mk none (some v)).leaves = [[]] := rfl

theorem leaves_mk_some_some (mm : TMap) (v : Nat × Nat) :
    (TNode.mk (some mm) (some v)).leaves = [] :: mm.leaves := rfl

theorem mem_leaves_nonempty : ∀ (m : TMap) (p : List Nat), p ∈ m.leaves → p ≠ []
  | .nil, p, hp => by simp [leaves_nil] at hp
  | .cons k n rest, p, hp => by
    rw [leaves_cons] at hp
    rcases List.mem_append.1 hp with h | h
    · obtain ⟨q, _, hq⟩ := List.mem_map.1 h
      exact hq ▸ (by simp)
    · exact mem_leaves_nonempty rest p h

/-- Leaves of an optional node. -/
def optLeaves : Option TNode → List (List Nat)
  | some n => n.leaves
  | none => []

theorem mem_leaves_lookup : ∀ (m : TMap), m.good = true → ∀ (d : Nat) (p : List Nat),
    ((d :: p) ∈ m.leaves ↔ ∃ n, m.lookup d = some n ∧ p ∈ n.leaves)
  | .nil, _, d, p => by simp [leaves_nil, TMap.lookup]
  | .cons k n rest, hg, d, p => by
    rw [good_cons_iff] at hg
    rw [leaves_cons]
    constructor
    · intro hp
      rcases List.mem_append.1 hp with h | h
      · obtain ⟨q, hq, hqe⟩ := List.mem_map.1 h
        injection hqe with hk hqp
        subst hk
        subst hqp
        exact ⟨n, by simp [TMap.lookup], hq⟩
      · obtain ⟨nn, hnn, hmem⟩ := (mem_leaves_lookup rest hg.2.2 d p).1 h
        by_cases hk : k = d
        · subst hk
          rw [hg.2.1] at hnn
          exact absurd hnn (by simp)
        · exact ⟨nn, by simp [TMap.lookup, hk, hnn], hmem⟩
    · rintro ⟨nn, hnn, hmem⟩
      simp only [TMap.lookup] at hnn
      by_cases hk : k = d
      · rw [if_pos hk] at hnn
        cases hnn
        subst hk
        exact List.mem_append.2 (Or.inl (List.mem_map.2 ⟨p, hmem, rfl⟩))
      · rw [if_neg hk] at hnn
        exact List.mem_append.2
          (Or.inr ((mem_leaves_lookup rest hg.2.2 d p).2 ⟨nn, hnn, hmem⟩))

theorem leaves_decomp : ∀ (m : TMap) (d : Nat),
    m.leaves.Perm ((optLeaves (m.lookup d)).map (fun p => d :: p) ++ (m.eraseKey d).leaves)
  | .nil, d => by simp [leaves_nil, TMap.lookup, TMap.eraseKey, optLeaves]
  | .cons k n rest, d => by
    by_cases hk : k = d
    · subst hk
      rw [show (TMap.cons k n rest).lookup k = some n from by simp [TMap.lookup],
          show (TMap.cons k n rest).eraseKey k = rest from by simp [TMap.eraseKey],
          leaves_cons]
      exact List.Perm.refl _
    · rw [show (TMap.cons k n rest).lookup d = rest.lookup d from by
          simp [TMap.lookup, hk],
        show (TMap.cons k n rest).eraseKey d = TMap.cons k n (rest.eraseKey d) from by
          simp [TMap.eraseKey, hk],
        leaves_cons, leaves_cons]
      refine List.Perm.trans (List.Perm.append_left _ (leaves_decomp rest d)) ?_
      rw [← List.append_assoc, ← List.append_assoc]
      exact List.perm_append_comm.append_right _

theorem leaves_setEntry : ∀ (m : TMap) (d : Nat) (n : TNode),
    (m.setEntry d n).leaves.Perm
      ((n.leaves).map (fun p => d :: p) ++ (m.eraseKey d).leaves)
  | .nil, d, n => by
    rw [show TMap.nil.setEntry d n = TMap.cons d n TMap.nil from rfl,
        show TMap.nil.eraseKey d = TMap.nil from rfl, leaves_cons, leaves_nil]
  | .cons k nn rest, d, n => by
    by_cases hk : k = d
    · subst hk
      rw [show (TMap.cons k nn rest).setEntry k n = TMap.cons k n rest from by
            simp [TMap.setEntry],
          show (TMap.cons k nn rest).eraseKey k = rest from by simp [TMap.eraseKey],
          leaves_cons]
    · rw [show (TMap.cons k nn rest).setEntry d n = TMap.cons k nn (rest.setEntry d n) from by
            simp [TMap.setEntry, hk],
          show (TMap.cons k nn rest).eraseKey d = TMap.cons k nn (rest.eraseKey d) from by
            simp [TMap.eraseKey, hk],
          leaves_cons, leaves_cons]
      refine List.Perm.trans (List.Perm.append_left _ (leaves_setEntry rest d n)) ?_
      rw [← List.append_assoc, ← List.append_assoc]
      exact List.perm_append_comm.append_right _

mutual

theorem node_leaves_ne_nil : ∀ (n : TNode), n.good = true → n.leaves ≠ []
  | .mk none (some v), _ => by simp [leaves_mk_none_some]
  | .mk (some mm) none, hg => by
    rw [leaves_mk_some_none]
    have hg' : (!mm.isNil && mm.good) = true := hg
    simp only [Bool.and_eq_true, Bool.not_eq_true'] at hg'
    exact map_leaves_ne_nil mm hg'.2 (by simpa using hg'.1)
  | .mk none none, hg => by exact absurd hg (by simp [TNode.good])
  | .mk (some mm) (some v), hg => by exact absurd hg (by simp [TNode.good])

theorem map_leaves_ne_nil : ∀ (m : TMap), m.good = true → m.isNil = false → m.leaves ≠ []
  | .nil, _, hn => by simp [TMap.isNil] at hn
  | .cons k n rest, hg, _ => by
    rw [good_cons_iff] at hg
    rw [leaves_cons]
    intro hc
    rcases List.append_eq_nil.1 hc with ⟨h1, _⟩
    exact node_leaves_ne_nil n hg.1 (List.map_eq_nil.1 h1)

end

mutual

theorem node_leaves_nodup : ∀ (n : TNode), n.good = true → n.leaves.Nodup
  | .mk none (some v), _ => by simp [leaves_mk_none_some]
  | .mk (some mm) none, hg => by
    rw [leaves_mk_some_none]
    have hg' : (!mm.isNil && mm.good) = true := hg
    simp only [Bool.and_eq_true] at hg'
    exact map_leaves_nodup mm hg'.2
  | .mk none none, hg => by exact absurd hg (by simp [TNode.good])
  | .mk (some mm) (some v), hg => by exact absurd hg (by simp [TNode.good])

theorem map_leaves_nodup : ∀ (m : TMap), m.good = true → m.leaves.Nodup
  | .nil, _ => by simp [leaves_nil]
  | .cons k n rest, hg => by
    rw [good_cons_iff] at hg
    rw [leaves_cons]
    rw [List.nodup_append]
    refine ⟨(node_leaves_nodup n hg.1).map (fun p q hpq => by injection hpq),
      map_leaves_nodup rest hg.2.2, ?_⟩
    intro p hp hq
    obtain ⟨p', hp', rfl⟩ := List.mem_map.1 hp
    obtain ⟨nn, hnn, _⟩ := (mem_leaves_lookup rest hg.2.2 k p').1 hq
    rw [hg.2.1] at hnn
    exact Option.noConfusion hnn

end

mutual

theorem node_good_holds : ∀ (n : TNode), n.good = true → n.subtreeHolds = true
  | .mk none (some v), _ => by simp [TNode.subtreeHolds, TNode.holdsSomething]
  | .mk (some mm) none, hg => by
    have hg' : (!mm.isNil && mm.good) = true := hg
    simp only [Bool.and_eq_true, Bool.not_eq_true'] at hg'
    simp only [TNode.subtreeHolds, TNode.holdsSomething, Bool.and_eq_true]
    refine ⟨by simp [hg'.1], map_good_holds mm hg'.2⟩
  | .mk none none, hg => by exact absurd hg (by simp [TNode.good])
  | .mk (some mm) (some v), hg => by exact absurd hg (by simp [TNode.good])

theorem map_good_holds : ∀ (m : TMap), m.good = true → m.allNodesHold = true
  | .nil, _ => rfl
  | .cons k n rest, hg => by
    rw [good_cons_iff] at hg
    show (n.subtreeHolds && rest.allNodesHold) = true
    rw [node_good_holds n hg.1, map_good_holds rest hg.2.2]
    rfl

end

/-! ## Unfolding the traversal -/

theorem iga_nil (m : TMap) : internalGetAux m [] = some (TNode.mk (some m) none) := rfl

theorem iga_foldl_none : ∀ (l : List Nat),
    l.foldl (fun c d => c.bind (fun n => n.map.bind (fun mm => mm.lookup d)))
      (none : Option TNode) = none
  | [] => rfl
  | d :: l => by
    show List.foldl _ (Option.bind none _) l = none
    rw [Option.none_bind]
    exact iga_foldl_none l

theorem iga_single (m : TMap) (d : Nat) : internalGetAux m [d] = m.lookup d := by
  show ((some (TNode.mk (some m) none)).bind
    (fun n => n.map.bind (fun mm => mm.lookup d))) = m.lookup d
  simp [TNode.map]

theorem iga_cons_cons (m : TMap) (d e : Nat) (l : List Nat) :
    internalGetAux m (d :: e :: l) =
      (m.lookup d).bind (fun n => n.map.bind (fun mm => internalGetAux mm (e :: l))) := by
  show List.foldl _ ((some (TNode.mk (some m) none)).bind
    (fun n => n.map.bind (fun mm => mm.lookup d))) (e :: l) = _
  rw [Option.some_bind]
  rw [show (TNode.mk (some m) none).map.bind (fun mm => mm.lookup d) = m.lookup d from by
    simp [TNode.map]]
  cases hl : m.lookup d with
  | none =>
    rw [Option.none_bind]
    exact iga_foldl_none (e :: l)
  | some n =>
    rw [Option.some_bind]
    show List.foldl _ ((some n).bind (fun n => n.map.bind (fun mm => mm.lookup e))) l = _
    rw [Option.some_bind]
    cases hm : n.map with
    | none =>
      rw [Option.none_bind, Option.none_bind]
      exact iga_foldl_none l
    | some mm =>
      rw [Option.some_bind, Option.some_bind]
      show List.foldl _ (mm.lookup e) l = internalGetAux mm (e :: l)
      show _ = List.foldl _ ((some (TNode.mk (some mm) none)).bind
        (fun n => n.map.bind (fun mm => mm.lookup e))) l
      rw [Option.some_bind]
      rw [show (TNode.mk (some mm) none).map.bind (fun mm => mm.lookup e) = mm.lookup e from by
        simp [TNode.map]]

theorem nil_mem_node_leaves_iff (n : TNode) :
    (([] : List Nat) ∈ n.leaves) ↔ n.value.isSome = true := by
  obtain ⟨m, v⟩ := n
  cases m with
  | none =>
    cases v with
    | none => simp [leaves_mk_none_none, TNode.value]
    | some vv => simp [leaves_mk_none_some, TNode.value]
  | some mm =>
    cases v with
    | none =>
      rw [leaves_mk_some_none]
      simp only [TNode.value, Option.isSome_none]
      exact ⟨fun h => absurd rfl (mem_leaves_nonempty mm [] h), fun h => Bool.noConfusion h⟩
    | some vv =>
      rw [leaves_mk_some_some]
      simp only [TNode.value, Option.isSome_some]
      simp

theorem good_lookup : ∀ (m : TMap) (d : Nat) (n : TNode),
    m.good = true → m.lookup d = some n → n.good = true
  | .nil, d, n, _, h => by simp [TMap.lookup] at h
  | .cons k nn rest, d, n, hg, h => by
    rw [good_cons_iff] at hg
    simp only [TMap.lookup] at h
    by_cases hk : k = d
    · rw [if_pos hk] at h
      cases h
      exact hg.1
    · rw [if_neg hk] at h
      exact good_lookup rest d n hg.2.2 h

theorem mem_leaves_iga : ∀ (q : List Nat) (m : TMap), m.good = true →
    ((((internalGetAux m q).bind TNode.value).isSome = true) ↔ q ∈ m.leaves)
  | [], m, _ => by
    rw [iga_nil]
    simp only [Option.some_bind, TNode.value, Option.isSome_none]
    exact ⟨fun h => Bool.noConfusion h,
      fun h => absurd rfl (mem_leaves_nonempty m [] h)⟩
  | [d], m, hg => by
    rw [iga_single]
    rw [mem_leaves_lookup m hg d []]
    cases hl : m.lookup d with
    | none => simp
    | some n =>
      rw [Option.some_bind]
      constructor
      · intro h
        exact ⟨n, rfl, (nil_mem_node_leaves_iff n).2 h⟩
      · rintro ⟨n', hn', hmem⟩
        cases hn'
        exact (nil_mem_node_leaves_iff _).1 hmem
  | d :: e :: l, m, hg => by
    rw [iga_cons_cons]
    rw [mem_leaves_lookup m hg d (e :: l)]
    cases hl : m.lookup d with
    | none => simp
    | some n =>
      have hng := good_lookup m d n hg hl
      rw [Option.some_bind]
      rcases good_node_cases n hng with ⟨v, rfl⟩ | ⟨mm, rfl, hnil, hmg⟩
      · rw [show (TNode.mk none (some v)).map = none from rfl, Option.none_bind,
          Option.none_bind]
        simp only [Option.isSome_none]
        constructor
        · intro h; exact absurd h (by simp)
        · rintro ⟨n', hn', hmem⟩
          cases hn'
          rw [leaves_mk_none_some] at hmem
          simp at hmem
      · rw [show (TNode.mk (some mm) none).map = some mm from rfl, Option.some_bind]
        rw [mem_leaves_iga (e :: l) mm hmg]
        constructor
        · intro h
          exact ⟨TNode.mk (some mm) none, rfl, h⟩
        · rintro ⟨n', hn', hmem⟩
          cases hn'
          exact hmem

/-! ## stampAt preserves structure -/

theorem leaves_setEntry_eq : ∀ (m : TMap) (d : Nat) (n n' : TNode),
    m.lookup d = some n → n'.leaves = n.leaves → (m.setEntry d n').leaves = m.leaves
  | .nil, d, n, n', h, _ => by simp [TMap.lookup] at h
  | .cons k nn rest, d, n, n', h, hleq => by
    simp only [TMap.lookup] at h
    by_cases hk : k = d
    · rw [if_pos hk] at h
      injection h with h'
      subst h'
      subst hk
      rw [show (TMap.cons k nn rest).setEntry k n' = TMap.cons k n' rest from by
        simp [TMap.setEntry]]
      rw [leaves_cons, leaves_cons, hleq]
    · rw [if_neg hk] at h
      rw [show (TMap.cons k nn rest).setEntry d n' = TMap.cons k nn (rest.setEntry d n') from by
        simp [TMap.setEntry, hk]]
      rw [leaves_cons, leaves_cons, leaves_setEntry_eq rest d n n' h hleq]

theorem node_leaves_stamp_eq (mm : Option TMap) (v v' : Nat × Nat) :
    (TNode.mk mm (some v')).leaves = (TNode.mk mm (some v)).leaves := by
  cases mm <;> rfl

theorem leaves_stampAt : ∀ (seq : List Nat) (m : TMap) (t : Nat),
    (stampAt m seq t).leaves = m.leaves
  | [], m, t => rfl
  | [d], m, t => by
    show (match m.lookup d with
      | some (TNode.mk mm (some v)) => m.setEntry d (TNode.mk mm (some (v.1, t)))
      | _ => m).leaves = m.leaves
    cases hl : m.lookup d with
    | none => rfl
    | some n =>
      obtain ⟨mm, v⟩ := n
      cases v with
      | none => rfl
      | some vv =>
        exact leaves_setEntry_eq m d (TNode.mk mm (some vv)) (TNode.mk mm (some (vv.1, t)))
          hl (node_leaves_stamp_eq mm vv (vv.1, t))
  | d :: e :: l, m, t => by
    show (match m.lookup d with
      | some (TNode.mk (some mm) v) =>
        m.setEntry d (TNode.mk (some (stampAt mm (e :: l) t)) v)
      | _ => m).leaves = m.leaves
    cases hl : m.lookup d with
    | none => rfl
    | some n =>
      obtain ⟨mo, v⟩ := n
      cases mo with
      | none => rfl
      | some mm =>
        refine leaves_setEntry_eq m d (TNode.mk (some mm) v)
          (TNode.mk (some (stampAt mm (e :: l) t)) v) hl ?_
        cases v with
        | none => rw [leaves_mk_some_none, leaves_mk_some_none, leaves_stampAt (e :: l) mm t]
        | some vv =>
          rw [leaves_mk_some_some, leaves_mk_some_some, leaves_stampAt (e :: l) mm t]

theorem stampAt_isNil : ∀ (seq : List Nat) (m : TMap) (t : Nat),
    (stampAt m seq t).isNil = m.isNil
  | [], m, t => rfl
  | [d], m, t => by
    show (match m.lookup d with
      | some (TNode.mk mm (some v)) => m.setEntry d (TNode.mk mm (some (v.1, t)))
      | _ => m).isNil = m.isNil
    cases hl : m.lookup d with
    | none => rfl
    | some n =>
      obtain ⟨mm, v⟩ := n
      cases v with
      | none => rfl
      | some vv =>
        rw [setEntry_not_isNil]
        cases m with
        | nil => simp [TMap.lookup] at hl
        | cons k nn rest => rfl
  | d :: e :: l, m, t => by
    show (match m.lookup d with
      | some (TNode.mk (some mm) v) =>
        m.setEntry d (TNode.mk (some (stampAt mm (e :: l) t)) v)
      | _ => m).isNil = m.isNil
    cases hl : m.lookup d with
    | none => rfl
    | some n =>
      obtain ⟨mo, v⟩ := n
      cases mo with
      | none => rfl
      | some mm =>
        rw [setEntry_not_isNil]
        cases m with
        | nil => simp [TMap.lookup] at hl
        | cons k nn rest => rfl

theorem good_stampAt : ∀ (seq : List Nat) (m : TMap) (t : Nat),
    m.good = true → (stampAt m seq t).good = true
  | [], m, t, hg => hg
  | [d], m, t, hg => by
    show (match m.lookup d with
      | some (TNode.mk mm (some v)) => m.setEntry d (TNode.mk mm (some (v.1, t)))
      | _ => m).good = true
    cases hl : m.lookup d with
    | none => exact hg
    | some n =>
      obtain ⟨mm, v⟩ := n
      cases v with
      | none => exact hg
      | some vv =>
        refine good_setEntry m d _ hg ?_
        have hng := good_lookup m d _ hg hl
        rcases good_node_cases _ hng with ⟨w, hw⟩ | ⟨mm', hmm', _⟩
        · injection hw with h1 h2
          subst h1
          exact rfl
        · injection hmm' with h1 h2
          exact absurd h2 (by simp)
  | d :: e :: l, m, t, hg => by
    show (match m.lookup d with
      | some (TNode.mk (some mm) v) =>
        m.setEntry d (TNode.mk (some (stampAt mm (e :: l) t)) v)
      | _ => m).good = true
    cases hl : m.lookup d with
    | none => exact hg
    | some n =>
      obtain ⟨mo, v⟩ := n
      cases mo with
      | none => exact hg
      | some mm =>
        refine good_setEntry m d _ hg ?_
        have hng := good_lookup m d _ hg hl
        rcases good_node_cases _ hng with ⟨w, hw⟩ | ⟨mm', hmm', hnil, hgood⟩
        · exact absurd hw (by simp)
        · injection hmm' with h1 h2
          injection h1 with h1'
          subst h2
          rw [← h1'] at hnil hgood
          show (!(stampAt mm (e :: l) t).isNil && (stampAt mm (e :: l) t).good) = true
          rw [stampAt_isNil, good_stampAt (e :: l) mm t hgood, hnil]
          rfl

/-! ## writePath lemmas -/

theorem map_cons_erase (d : Nat) : ∀ (l : List (List Nat)) (a : List Nat),
    (l.erase a).map (fun p => d :: p) = (l.map (fun p => d :: p)).erase (d :: a)
  | [], a => rfl
  | x :: xs, a => by
    by_cases h : x = a
    · subst h
      simp [List.erase_cons_head]
    · rw [List.erase_cons_tail (by simpa using h)]
      rw [List.map_cons, List.map_cons,
        List.erase_cons_tail (by simpa using fun hc : d :: x = d :: a => h (by injection hc))]
      rw [map_cons_erase d xs a]

theorem writePath_not_isNil : ∀ (seq : List Nat) (m : TMap) (v t : Nat), seq ≠ [] →
    (writePath m seq v t).isNil = false
  | [], _, _, _, h => absurd rfl h
  | [d], m, v, t, _ => by
    show (m.setEntry d (TNode.mk none (some (v, t)))).isNil = false
    exact setEntry_not_isNil m d _
  | d :: e :: l, m, v, t, _ => by
    show (match m.lookup d with
      | none => m.setEntry d (TNode.mk (some (writePath TMap.nil (e :: l) v t)) none)
      | some n =>
        m.setEntry d (TNode.mk (some (writePath (n.map.getD TMap.nil) (e :: l) v t)) n.value)
      ).isNil = false
    cases m.lookup d with
    | none => exact setEntry_not_isNil m d _
    | some n => exact setEntry_not_isNil m d _

theorem good_writePath : ∀ (seq : List Nat) (m : TMap) (v t : Nat),
    m.good = true → seq ≠ [] →
    (∀ p, p ∈ m.leaves → p ≠ seq → ¬ (p <+: seq) ∧ ¬ (seq <+: p)) →
    (writePath m seq v t).good = true
  | [], _, _, _, _, h, _ => absurd rfl h
  | [d], m, v, t, hg, _, _ => by
    show (m.setEntry d (TNode.mk none (some (v, t)))).good = true
    exact good_setEntry m d _ hg rfl
  | d :: e :: l, m, v, t, hg, _, hpf => by
    show (match m.lookup d with
      | none => m.setEntry d (TNode.mk (some (writePath TMap.nil (e :: l) v t)) none)
      | some n =>
        m.setEntry d (TNode.mk (some (writePath (n.map.getD TMap.nil) (e :: l) v t)) n.value)
      ).good = true
    cases hl : m.lookup d with
    | none =>
      refine good_setEntry m d _ hg ?_
      show (!(writePath TMap.nil (e :: l) v t).isNil
        && (writePath TMap.nil (e :: l) v t).good) = true
      rw [writePath_not_isNil (e :: l) TMap.nil v t (by simp),
        good_writePath (e :: l) TMap.nil v t rfl (by simp) (by simp [leaves_nil])]
      rfl
    | some n =>
      have hng := good_lookup m d n hg hl
      rcases good_node_cases n hng with ⟨w, rfl⟩ | ⟨mm, rfl, hnil, hmg⟩
      · exfalso
        have hdl : [d] ∈ m.leaves := by
          rw [mem_leaves_lookup m hg d []]
          exact ⟨_, hl, by rw [leaves_mk_none_some]; simp⟩
        have := hpf [d] hdl (by simp)
        exact this.1 ⟨e :: l, rfl⟩
      · refine good_setEntry m d _ hg ?_
        rw [show (TNode.mk (some mm) none).map.getD TMap.nil = mm from rfl,
          show (TNode.mk (some mm) none).value = none from rfl]
        show (!(writePath mm (e :: l) v t).isNil && (writePath mm (e :: l) v t).good) = true
        have hrec : (writePath mm (e :: l) v t).good = true := by
          refine good_writePath (e :: l) mm v t hmg (by simp) ?_
          intro p hp hne
          have hmem : (d :: p) ∈ m.leaves := by
            rw [mem_leaves_lookup m hg d p]
            exact ⟨_, hl, by rw [leaves_mk_some_none]; exact hp⟩
          have := hpf (d :: p) hmem (fun hc => hne (by injection hc))
          constructor
          · intro hc
            exact this.1 (List.cons_prefix_cons.2 ⟨rfl, hc⟩)
          · intro hc
            exact this.2 (List.cons_prefix_cons.2 ⟨rfl, hc⟩)
        rw [writePath_not_isNil (e :: l) mm v t (by simp), hrec]
        rfl

theorem eraseD_eq : ∀ (l : List (List Nat)) (a : List Nat),
    @List.erase (List Nat) instBEqOfDecidableEq l a = l.erase a
  | [], a => rfl
  | x :: xs, a => by
    by_cases h : x = a
    · subst h
      simp [List.erase_cons]
    · simp [List.erase_cons, h, eraseD_eq xs a]

theorem perm_erase (a : List Nat) {l l' : List (List Nat)} (h : l.Perm l') :
    (l.erase a).Perm (l'.erase a) := by
  have h2 := List.Perm.erase a h
  rwa [eraseD_eq, eraseD_eq] at h2

theorem erase_append_of_not_mem_right (a : List Nat) (l1 l2 : List (List Nat))
    (h : a ∉ l2) : (l1 ++ l2).erase a = l1.erase a ++ l2 := by
  by_cases h1 : a ∈ l1
  · exact List.erase_append_left l2 h1
  · rw [List.erase_append_right l2 h1, List.erase_of_not_mem h, List.erase_of_not_mem h1]

theorem not_mem_leaves_eraseKey_self (m : TMap) (d : Nat) (p : List Nat)
    (hg : m.good = true) : (d :: p) ∉ (m.eraseKey d).leaves := by
  intro hc
  obtain ⟨n, hn, _⟩ := (mem_leaves_lookup (m.eraseKey d) (good_eraseKey m d hg) d p).1 hc
  rw [lookup_eraseKey_self m d hg] at hn
  exact Option.noConfusion hn

theorem leaves_writePath : ∀ (seq : List Nat) (m : TMap) (v t : Nat),
    m.good = true → seq ≠ [] →
    (∀ p, p ∈ m.leaves → p ≠ seq → ¬ (p <+: seq) ∧ ¬ (seq <+: p)) →
    (writePath m seq v t).leaves.Perm (seq :: m.leaves.erase seq)
  | [], _, _, _, _, h, _ => absurd rfl h
  | [d], m, v, t, hg, _, hpf => by
    show (m.setEntry d (TNode.mk none (some (v, t)))).leaves.Perm _
    refine List.Perm.trans (leaves_setEntry m d _) ?_
    rw [leaves_mk_none_some]
    cases hl : m.lookup d with
    | none =>
      have hnm : [d] ∉ m.leaves := by
        intro hc
        obtain ⟨n, hn, _⟩ := (mem_leaves_lookup m hg d []).1 hc
        rw [hl] at hn
        exact Option.noConfusion hn
      rw [List.erase_of_not_mem hnm]
      have hd := leaves_decomp m d
      rw [hl] at hd
      simp only [optLeaves, List.map_nil, List.nil_append] at hd
      exact List.Perm.cons [d] hd.symm
    | some n =>
      have hng := good_lookup m d n hg hl
      rcases good_node_cases n hng with ⟨w, rfl⟩ | ⟨mm, rfl, hnil, hmg⟩
      · have hd := leaves_decomp m d
        rw [hl] at hd
        rw [show optLeaves (some (TNode.mk none (some w))) = [[]] from rfl] at hd
        simp only [List.map_cons, List.map_nil] at hd
        refine List.Perm.cons [d] ?_
        have h2 := perm_erase [d] hd
        rw [show ([[d]] ++ (m.eraseKey d).leaves).erase [d] = (m.eraseKey d).leaves from by
          rw [List.singleton_append, List.erase_cons_head]] at h2
        exact h2.symm
      · exfalso
        obtain ⟨p, hp⟩ := List.exists_mem_of_ne_nil _ (map_leaves_ne_nil mm hmg hnil)
        have hmem : (d :: p) ∈ m.leaves := by
          rw [mem_leaves_lookup m hg d p]
          exact ⟨_, hl, by rw [leaves_mk_some_none]; exact hp⟩
        have hne : d :: p ≠ [d] := by
          intro hc
          injection hc with _ h2
          exact mem_leaves_nonempty mm p hp h2
        exact (hpf (d :: p) hmem hne).2 ⟨p, rfl⟩
  | d :: e :: l, m, v, t, hg, _, hpf => by
    show (match m.lookup d with
      | none => m.setEntry d (TNode.mk (some (writePath TMap.nil (e :: l) v t)) none)
      | some n =>
        m.setEntry d (TNode.mk (some (writePath (n.map.getD TMap.nil) (e :: l) v t)) n.value)
      ).leaves.Perm _
    cases hl : m.lookup d with
    | none =>
      refine List.Perm.trans (leaves_setEntry m d _) ?_
      rw [leaves_mk_some_none, eraseKey_of_lookup_none m d hl]
      have hih : (writePath TMap.nil (e :: l) v t).leaves.Perm [e :: l] := by
        have := leaves_writePath (e :: l) TMap.nil v t rfl (by simp) (by simp [leaves_nil])
        simpa [leaves_nil] using this
      have hnm : (d :: e :: l) ∉ m.leaves := by
        intro hc
        obtain ⟨n, hn, _⟩ := (mem_leaves_lookup m hg d (e :: l)).1 hc
        rw [hl] at hn
        exact Option.noConfusion hn
      rw [List.erase_of_not_mem hnm]
      refine List.Perm.trans (List.Perm.append_right m.leaves (hih.map _)) ?_
      simp
    | some n =>
      have hng := good_lookup m d n hg hl
      rcases good_node_cases n hng with ⟨w, rfl⟩ | ⟨mm, rfl, hnil, hmg⟩
      · exfalso
        have hdl : [d] ∈ m.leaves := by
          rw [mem_leaves_lookup m hg d []]
          exact ⟨_, hl, by rw [leaves_mk_none_some]; simp⟩
        exact (hpf [d] hdl (by simp)).1 ⟨e :: l, rfl⟩
      · show (m.setEntry d
            (TNode.mk (some (writePath mm (e :: l) v t)) none)).leaves.Perm
          ((d :: e :: l) :: m.leaves.erase (d :: e :: l))
        refine List.Perm.trans (leaves_setEntry m d _) ?_
        rw [leaves_mk_some_none]
        have hih : (writePath mm (e :: l) v t).leaves.Perm
            ((e :: l) :: mm.leaves.erase (e :: l)) := by
          refine leaves_writePath (e :: l) mm v t hmg (by simp) ?_
          intro p hp hne
          have hmem : (d :: p) ∈ m.leaves := by
            rw [mem_leaves_lookup m hg d p]
            exact ⟨_, hl, by rw [leaves_mk_some_none]; exact hp⟩
          have := hpf (d :: p) hmem (fun hc => hne (by injection hc))
          exact ⟨fun hc => this.1 (List.cons_prefix_cons.2 ⟨rfl, hc⟩),
            fun hc => this.2 (List.cons_prefix_cons.2 ⟨rfl, hc⟩)⟩
        have hd := leaves_decomp m d
        rw [hl, show optLeaves (some (TNode.mk (some mm) none)) = mm.leaves from rfl] at hd
        have hstep1 : (writePath mm (e :: l) v t).leaves.map (fun p => d :: p)
            ++ (m.eraseKey d).leaves
            |>.Perm ((d :: e :: l) ::
              ((mm.leaves.erase (e :: l)).map (fun p => d :: p) ++ (m.eraseKey d).leaves)) := by
          refine List.Perm.trans (List.Perm.append_right _ (hih.map _)) ?_
          simp
        refine List.Perm.trans hstep1 (List.Perm.cons _ ?_)
        have herase : m.leaves.erase (d :: e :: l) |>.Perm
            ((mm.leaves.map (fun p => d :: p) ++ (m.eraseKey d).leaves).erase (d :: e :: l)) :=
          perm_erase _ hd
        rw [erase_append_of_not_mem_right _ _ _
          (not_mem_leaves_eraseKey_self m d (e :: l) hg)] at herase
        rw [← map_cons_erase d mm.leaves (e :: l)] at herase
        exact herase.symm

/-! ## deleteByPath lemmas -/

theorem deleteByPath_spec : ∀ (seq : List Nat) (m : TMap),
    m.good = true → seq ∈ m.leaves →
    ∃ r m', deleteByPath m seq = some (r, m') ∧ m'.good = true ∧
      m'.leaves.Perm (m.leaves.erase seq)
  | [], m, _, hmem => absurd rfl (mem_leaves_nonempty m [] hmem)
  | [d], m, hg, hmem => by
    obtain ⟨n, hl, hnil⟩ := (mem_leaves_lookup m hg d []).1 hmem
    have hng := good_lookup m d n hg hl
    rcases good_node_cases n hng with ⟨w, rfl⟩ | ⟨mm, rfl, _, _⟩
    · refine ⟨some w.1, m.eraseKey d, ?_, good_eraseKey m d hg, ?_⟩
      · show (match m.lookup d with
          | none => none
          | some n =>
            match n.map with
            | none => some (n.value.map Prod.fst, m.eraseKey d)
            | some mm => some (n.value.map Prod.fst, m.setEntry d (TNode.mk (some mm) none))
          ) = _
        rw [hl]
        rfl
      · have hd := leaves_decomp m d
        rw [hl, show optLeaves (some (TNode.mk none (some w))) = [[]] from rfl] at hd
        simp only [List.map_cons, List.map_nil] at hd
        have h2 := perm_erase [d] hd
        rw [show ([[d]] ++ (m.eraseKey d).leaves).erase [d] = (m.eraseKey d).leaves from by
          rw [List.singleton_append, List.erase_cons_head]] at h2
        simpa using h2.symm
    · exfalso
      rw [leaves_mk_some_none] at hnil
      exact mem_leaves_nonempty mm [] hnil rfl
  | d :: e :: l, m, hg, hmem => by
    obtain ⟨n, hl, hsub⟩ := (mem_leaves_lookup m hg d (e :: l)).1 hmem
    have hng := good_lookup m d n hg hl
    rcases good_node_cases n hng with ⟨w, rfl⟩ | ⟨mm, rfl, hnil, hmg⟩
    · exfalso
      rw [leaves_mk_none_some] at hsub
      simp at hsub
    · rw [leaves_mk_some_none] at hsub
      obtain ⟨r, mm', hrec, hg', hperm⟩ := deleteByPath_spec (e :: l) mm hmg hsub
      have hshape : deleteByPath m (d :: e :: l) =
          (deleteByPath mm (e :: l)).map (fun (p : Option Nat × TMap) =>
            if p.2.isNil && (TNode.mk (some mm) none).value.isNone then (p.1, m.eraseKey d)
            else (p.1, m.setEntry d (TNode.mk (some p.2) (TNode.mk (some mm) none).value))) := by
        show (match m.lookup d with
          | none => none
          | some n =>
            match n.map with
            | none => none
            | some mm =>
              (deleteByPath mm (e :: l)).map (fun (p : Option Nat × TMap) =>
                if p.2.isNil && n.value.isNone then (p.1, m.eraseKey d)
                else (p.1, m.setEntry d (TNode.mk (some p.2) n.value)))) = _
        rw [hl]
        rfl
      rw [hrec] at hshape
      have hd := leaves_decomp m d
      rw [hl, show optLeaves (some (TNode.mk (some mm) none)) = mm.leaves from rfl] at hd
      cases hmmnil : mm'.isNil with
      | true =>
        have hmm' : mm' = TMap.nil := by
          cases mm' with
          | nil => rfl
          | cons a b c => exact absurd hmmnil (by simp [TMap.isNil])
        subst hmm'
        refine ⟨r, m.eraseKey d, ?_, good_eraseKey m d hg, ?_⟩
        · rw [hshape]
          rfl
        · have hsingle : mm.leaves.Perm [e :: l] := by
            have hc := List.perm_cons_erase hsub
            rw [eraseD_eq] at hc
            have hnilp : mm.leaves.erase (e :: l) = [] := by
              have hx := hperm.symm
              rw [leaves_nil] at hx
              exact hx.eq_nil
            rw [hnilp] at hc
            exact hc
          have hmap : (mm.leaves.map (fun p => d :: p)).Perm [d :: e :: l] :=
            hsingle.map (fun p => d :: p)
          have hml : m.leaves.Perm ((d :: e :: l) :: (m.eraseKey d).leaves) :=
            List.Perm.trans hd (List.Perm.append_right _ hmap)
          have h2 := perm_erase (d :: e :: l) hml
          rw [List.erase_cons_head] at h2
          exact h2.symm
      | false =>
        refine ⟨r, m.setEntry d (TNode.mk (some mm') none), ?_, ?_, ?_⟩
        · rw [hshape]
          show some (if mm'.isNil && true then (r, m.eraseKey d)
            else (r, m.setEntry d (TNode.mk (some mm') none))) = _
          rw [hmmnil]
          rfl
        · refine good_setEntry m d _ hg ?_
          show (!mm'.isNil && mm'.good) = true
          rw [hmmnil, hg']
          rfl
        · refine List.Perm.trans (leaves_setEntry m d _) ?_
          rw [leaves_mk_some_none]
          have h2 := perm_erase (d :: e :: l) hd
          rw [erase_append_of_not_mem_right _ _ _
            (not_mem_leaves_eraseKey_self m d (e :: l) hg)] at h2
          rw [← map_cons_erase d mm.leaves (e :: l)] at h2
          refine List.Perm.trans ?_ h2.symm
          exact List.Perm.append_right _ (hperm.map _)
  termination_by seq => seq.length

/-! ## ThemeCache-level characterizations -/

theorem internalGet_fst_false (s : ThemeCache) (q : List Nat) :
    (s.internalGet q false).1 = (internalGetAux s.cache q).bind TNode.value := by
  unfold ThemeCache.internalGet
  cases internalGetAux s.cache q with
  | none => rfl
  | some n =>
    obtain ⟨mo, vo⟩ := n
    cases vo <;> rfl

theorem internalGet_false_snd (s : ThemeCache) (q : List Nat) :
    (s.internalGet q false).2 = s := by
  unfold ThemeCache.internalGet
  cases internalGetAux s.cache q with
  | none => rfl
  | some n =>
    obtain ⟨mo, vo⟩ := n
    cases vo <;> rfl

theorem has_eq_isSome (s : ThemeCache) (q : List Nat) :
    s.has q = ((internalGetAux s.cache q).bind TNode.value).isSome := by
  unfold ThemeCache.has
  rw [internalGet_fst_false]

theorem has_iff_mem_leaves (s : ThemeCache) (q : List Nat) (hg : s.cache.good = true) :
    s.has q = true ↔ q ∈ s.cache.leaves := by
  rw [has_eq_isSome]
  exact mem_leaves_iga q s.cache hg

theorem internalGet_true_found (s : ThemeCache) (q : List Nat) (w : Nat × Nat)
    (h : (internalGetAux s.cache q).bind TNode.value = some w) :
    s.internalGet q true =
      (some (w.1, s.cacheCallTimes),
       ⟨stampAt s.cache q s.cacheCallTimes, s.keys, s.cacheCallTimes + 1⟩) := by
  unfold ThemeCache.internalGet
  cases hi : internalGetAux s.cache q with
  | none => rw [hi] at h; exact absurd h (by simp)
  | some n =>
    obtain ⟨mo, vo⟩ := n
    rw [hi, Option.some_bind] at h
    have hvo : vo = some w := h
    subst hvo
    rfl

theorem internalGet_true_nofind (s : ThemeCache) (q : List Nat)
    (h : (internalGetAux s.cache q).bind TNode.value = none) :
    s.internalGet q true = (none, s) := by
  unfold ThemeCache.internalGet
  cases hi : internalGetAux s.cache q with
  | none => rfl
  | some n =>
    obtain ⟨mo, vo⟩ := n
    rw [hi, Option.some_bind] at h
    have hvo : vo = none := h
    subst hvo
    rfl

theorem sameDerivativeOption_iff (a b : List Nat) :
    sameDerivativeOption a b = true ↔ a = b := by
  unfold sameDerivativeOption
  by_cases h : a.length = b.length
  · rw [if_neg (not_not_intro h)]
    simp only [List.all_eq_true, List.mem_range]
    constructor
    · intro hall
      apply List.ext_getElem h
      intro i h1 h2
      have hi := hall i h1
      rw [Nat.beq_eq_true_eq] at hi
      rw [List.getD_eq_getElem a 0 h1, List.getD_eq_getElem b 0 h2] at hi
      exact hi
    · rintro rfl
      intro i hi
      simp
  · rw [if_pos h]
    simp only [Bool.false_eq_true, false_iff]
    intro hc
    exact h (by rw [hc])

theorem isEmpty_false_of_ne (q : List Nat) (h : q ≠ []) : q.isEmpty = false := by
  cases q with
  | nil => exact absurd rfl h
  | cons x xs => rfl

theorem filter_not_same_eq_erase : ∀ (l : List (List Nat)) (q : List Nat), l.Nodup →
    l.filter (fun item => !sameDerivativeOption item q) = l.erase q
  | [], q, _ => rfl
  | x :: xs, q, hnd => by
    rw [List.nodup_cons] at hnd
    by_cases hx : x = q
    · subst hx
      rw [List.filter_cons]
      rw [show (!sameDerivativeOption x x) = false from by
        simp [(sameDerivativeOption_iff x x).2 rfl]]
      rw [List.erase_cons_head]
      rw [if_neg (by simp)]
      apply List.filter_eq_self.2
      intro a ha
      have hax : sameDerivativeOption a x = false := by
        rcases hb : sameDerivativeOption a x with _ | _
        · rfl
        · exact absurd ((sameDerivativeOption_iff a x).1 hb ▸ ha) hnd.1
      rw [hax]
      rfl
    · rw [List.filter_cons]
      rw [show (!sameDerivativeOption x q) = true from by
        rcases hb : sameDerivativeOption x q with _ | _
        · rfl
        · exact absurd ((sameDerivativeOption_iff x q).1 hb) hx]
      rw [List.erase_cons_tail (by simpa using hx)]
      rw [if_pos rfl]
      rw [filter_not_same_eq_erase xs q hnd.2]

/-! ## Shape lemmas for `set` and `delete` -/

theorem delete_of_not_has (s : ThemeCache) (q : List Nat) (h : s.has q = false) :
    s.delete q = some (none, s) := by
  unfold ThemeCache.delete
  rw [h]
  rfl

theorem delete_of_has (s : ThemeCache) (q : List Nat) (r : Option Nat) (m' : TMap)
    (h : s.has q = true) (hdel : deleteByPath s.cache q = some (r, m')) :
    s.delete q = some (r,
      ⟨m', s.keys.filter (fun item => !sameDerivativeOption item q), s.cacheCallTimes⟩) := by
  unfold ThemeCache.delete
  rw [h, hdel]
  rfl

theorem set_of_has (ms mo : Nat) (s : ThemeCache) (q : List Nat) (v : Nat)
    (hhas : s.has q = true) (hne : q ≠ []) :
    ThemeCache.set ms mo s q v =
      some ⟨writePath s.cache q v s.cacheCallTimes, s.keys, s.cacheCallTimes + 1⟩ := by
  unfold ThemeCache.set
  simp [hhas, isEmpty_false_of_ne q hne]

theorem set_noEvict (ms mo : Nat) (s : ThemeCache) (q : List Nat) (v : Nat)
    (hhas : s.has q = false) (hsz : ¬(s.size + 1 > ms + mo)) (hne : q ≠ []) :
    ThemeCache.set ms mo s q v =
      some ⟨writePath s.cache q v s.cacheCallTimes, s.keys ++ [q], s.cacheCallTimes + 1⟩ := by
  unfold ThemeCache.set
  simp [hhas, hsz, isEmpty_false_of_ne q hne]

theorem set_evict (ms mo : Nat) (s : ThemeCache) (q : List Nat) (v : Nat)
    (tk : List Nat) (r : Option Nat) (s1 : ThemeCache)
    (hhas : s.has q = false) (hsz : s.size + 1 > ms + mo)
    (hscan : evictScan s = some tk) (hdel : s.delete tk = some (r, s1)) (hne : q ≠ []) :
    ThemeCache.set ms mo s q v =
      some ⟨writePath s1.cache q v s1.cacheCallTimes, s1.keys ++ [q],
        s1.cacheCallTimes + 1⟩ := by
  unfold ThemeCache.set
  simp [hhas, hsz, hscan, hdel, isEmpty_false_of_ne q hne]

/-! ## The trace invariant for prefix-free families -/

/-- A family of derivative sequences is prefix-free when no sequence is a
proper prefix of another, and none is empty. -/
def PrefixFreeFam (F : List (List Nat)) : Prop :=
  (∀ p ∈ F, p ≠ []) ∧ ∀ p ∈ F, ∀ q ∈ F, p <+: q → p = q

/-- Structural invariant of a `ThemeCache` reachable by operations over a
prefix-free family `F`: the registry has no duplicates, registers only
members of `F`, is a permutation of the trie's leaf paths, and the trie is
well-formed. -/
def TCInv (F : List (List Nat)) (s : ThemeCache) : Prop :=
  s.keys.Nodup ∧ (∀ k ∈ s.keys, k ∈ F) ∧ s.cache.leaves.Perm s.keys ∧ s.cache.good = true

theorem tcInv_fresh (F : List (List Nat)) : TCInv F ThemeCache.fresh := by
  refine ⟨List.nodup_nil, by simp [ThemeCache.fresh], ?_, rfl⟩
  simp [ThemeCache.fresh, leaves_nil]

theorem hpf_of_inv (F : List (List Nat)) (s : ThemeCache) (q : List Nat)
    (hF : PrefixFreeFam F) (h : TCInv F s) (hq : q ∈ F) :
    ∀ p, p ∈ s.cache.leaves → p ≠ q → ¬ (p <+: q) ∧ ¬ (q <+: p) := by
  intro p hp hne
  have hpF : p ∈ F := h.2.1 p ((h.2.2.1.mem_iff).1 hp)
  exact ⟨fun hc => hne (hF.2 p hpF q hq hc), fun hc => hne (hF.2 q hq p hpF hc).symm⟩

theorem tcInv_get (F : List (List Nat)) (s : ThemeCache) (q : List Nat)
    (h : TCInv F s) : TCInv F (s.get q).2 := by
  show TCInv F (s.internalGet q true).2
  cases hf : (internalGetAux s.cache q).bind TNode.value with
  | none =>
    rw [internalGet_true_nofind s q hf]
    exact h
  | some w =>
    rw [internalGet_true_found s q w hf]
    refine ⟨h.1, h.2.1, ?_, good_stampAt q s.cache s.cacheCallTimes h.2.2.2⟩
    show (stampAt s.cache q s.cacheCallTimes).leaves.Perm s.keys
    rw [leaves_stampAt]
    exact h.2.2.1

theorem delete_counter_and_sub (s : ThemeCache) (q : List Nat) (r : Option Nat)
    (s' : ThemeCache) (hdel : s.delete q = some (r, s')) :
    s'.cacheCallTimes = s.cacheCallTimes ∧ ∀ k ∈ s'.keys, k ∈ s.keys := by
  by_cases hhas : s.has q = true
  · unfold ThemeCache.delete at hdel
    rw [hhas, if_pos rfl] at hdel
    cases hd2 : deleteByPath s.cache q with
    | none => rw [hd2] at hdel; exact absurd hdel (by simp)
    | some p =>
      rw [hd2] at hdel
      simp only [Option.map_some'] at hdel
      injection hdel with hdel'
      injection hdel' with h1 h2
      subst h2
      refine ⟨rfl, fun k hk => ?_⟩
      exact List.mem_of_mem_filter hk
  · rw [delete_of_not_has s q (Bool.not_eq_true _ ▸ hhas : s.has q = false)] at hdel
    injection hdel with hdel'
    injection hdel' with h1 h2
    subst h2
    exact ⟨rfl, fun k hk => hk⟩

theorem tcInv_delete (F : List (List Nat)) (s : ThemeCache) (q : List Nat)
    (r : Option Nat) (s' : ThemeCache) (h : TCInv F s)
    (hdel : s.delete q = some (r, s')) : TCInv F s' := by
  by_cases hhas : s.has q = true
  · have hmem : q ∈ s.cache.leaves := (has_iff_mem_leaves s q h.2.2.2).1 hhas
    obtain ⟨rr, m', hsome, hg', hperm⟩ := deleteByPath_spec q s.cache h.2.2.2 hmem
    rw [delete_of_has s q rr m' hhas hsome] at hdel
    injection hdel with hdel'
    injection hdel' with h1 h2
    subst h2
    rw [filter_not_same_eq_erase s.keys q h.1]
    refine ⟨(List.erase_sublist q s.keys).nodup h.1,
      fun k hk => h.2.1 k ((List.erase_sublist q s.keys).subset hk), ?_, hg'⟩
    show m'.leaves.Perm (s.keys.erase q)
    exact List.Perm.trans hperm (perm_erase q h.2.2.1)
  · rw [delete_of_not_has s q (Bool.not_eq_true _ ▸ hhas : s.has q = false)] at hdel
    injection hdel with hdel'
    injection hdel' with h1 h2
    subst h2
    exact h

theorem tcInv_register (F : List (List Nat)) (s0 : ThemeCache) (q : List Nat) (v : Nat)
    (hF : PrefixFreeFam F) (h0 : TCInv F s0) (hq : q ∈ F)
    (hnmem : q ∉ s0.cache.leaves) :
    TCInv F ⟨writePath s0.cache q v s0.cacheCallTimes, s0.keys ++ [q],
      s0.cacheCallTimes + 1⟩ := by
  have hne : q ≠ [] := hF.1 q hq
  have hnk : q ∉ s0.keys := fun hc => hnmem ((h0.2.2.1.mem_iff).2 hc)
  refine ⟨?_, ?_, ?_, ?_⟩
  · rw [List.nodup_append]
    exact ⟨h0.1, List.nodup_singleton q, by
      intro a ha hb
      simp only [List.mem_singleton] at hb
      exact hnk (hb ▸ ha)⟩
  · intro k hk
    rcases List.mem_append.1 hk with hk | hk
    · exact h0.2.1 k hk
    · simp only [List.mem_singleton] at hk
      exact hk ▸ hq
  · show (writePath s0.cache q v s0.cacheCallTimes).leaves.Perm (s0.keys ++ [q])
    refine List.Perm.trans
      (leaves_writePath q s0.cache v s0.cacheCallTimes h0.2.2.2 hne
        (hpf_of_inv F s0 q hF h0 hq)) ?_
    rw [List.erase_of_not_mem hnmem]
    refine List.Perm.trans (List.Perm.cons q h0.2.2.1) ?_
    exact (List.perm_append_singleton q s0.keys).symm
  · exact good_writePath q s0.cache v s0.cacheCallTimes h0.2.2.2 hne
      (hpf_of_inv F s0 q hF h0 hq)

theorem tcInv_overwrite (F : List (List Nat)) (s : ThemeCache) (q : List Nat) (v : Nat)
    (hF : PrefixFreeFam F) (h : TCInv F s) (hq : q ∈ F)
    (hmem : q ∈ s.cache.leaves) :
    TCInv F ⟨writePath s.cache q v s.cacheCallTimes, s.keys, s.cacheCallTimes + 1⟩ := by
  have hne : q ≠ [] := hF.1 q hq
  refine ⟨h.1, h.2.1, ?_, good_writePath q s.cache v s.cacheCallTimes h.2.2.2 hne
    (hpf_of_inv F s q hF h hq)⟩
  show (writePath s.cache q v s.cacheCallTimes).leaves.Perm s.keys
  refine List.Perm.trans
    (leaves_writePath q s.cache v s.cacheCallTimes h.2.2.2 hne
      (hpf_of_inv F s q hF h hq)) ?_
  have hc := List.perm_cons_erase hmem
  rw [eraseD_eq] at hc
  exact List.Perm.trans hc.symm h.2.2.1

theorem tcInv_set (F : List (List Nat)) (ms mo : Nat) (s : ThemeCache) (q : List Nat)
    (v : Nat) (s' : ThemeCache) (hF : PrefixFreeFam F) (h : TCInv F s) (hq : q ∈ F)
    (hset : ThemeCache.set ms mo s q v = some s') : TCInv F s' := by
  have hne : q ≠ [] := hF.1 q hq
  by_cases hhas : s.has q = true
  · rw [set_of_has ms mo s q v hhas hne] at hset
    injection hset with hset'
    subst hset'
    exact tcInv_overwrite F s q v hF h hq ((has_iff_mem_leaves s q h.2.2.2).1 hhas)
  · have hhas' : s.has q = false := Bool.not_eq_true _ ▸ hhas
    have hnmem : q ∉ s.cache.leaves := fun hc =>
      hhas ((has_iff_mem_leaves s q h.2.2.2).2 hc)
    by_cases hsz : s.size + 1 > ms + mo
    · cases hscan : evictScan s with
      | none =>
        unfold ThemeCache.set at hset
        simp [hhas', hsz, hscan] at hset
      | some tk =>
        cases hdel : s.delete tk with
        | none =>
          unfold ThemeCache.set at hset
          simp [hhas', hsz, hscan, hdel] at hset
        | some rs1 =>
          obtain ⟨rr, s1⟩ := rs1
          rw [set_evict ms mo s q v tk rr s1 hhas' hsz hscan hdel hne] at hset
          injection hset with hset'
          subst hset'
          have hinv1 : TCInv F s1 := tcInv_delete F s tk rr s1 h hdel
          have hsub := delete_counter_and_sub s tk rr s1 hdel
          have hnmem1 : q ∉ s1.cache.leaves := by
            intro hc
            have : q ∈ s1.keys := (hinv1.2.2.1.mem_iff).1 hc
            have : q ∈ s.keys := hsub.2 q this
            exact hnmem ((h.2.2.1.mem_iff).2 this)
          exact tcInv_register F s1 q v hF hinv1 hq hnmem1
    · rw [set_noEvict ms mo s q v hhas' hsz hne] at hset
      injection hset with hset'
      subst hset'
      exact tcInv_register F s q v hF h hq hnmem

theorem tcInv_runOp (F : List (List Nat)) (ms mo : Nat) (s : ThemeCache) (op : CacheOp)
    (s' : ThemeCache) (hF : PrefixFreeFam F) (h : TCInv F s) (hop : op.seqOf ∈ F)
    (hrun : runOp ms mo s op = some s') : TCInv F s' := by
  cases op with
  | lookupOp qq =>
    injection hrun with hrun'
    subst hrun'
    exact tcInv_get F s qq h
  | presenceOp qq =>
    injection hrun with hrun'
    subst hrun'
    exact h
  | insertOp qq vv => exact tcInv_set F ms mo s qq vv s' hF h hop hrun
  | removeOp qq =>
    have hrun2 : ((s.delete qq).map Prod.snd) = some s' := hrun
    cases hdel : s.delete qq with
    | none => rw [hdel] at hrun2; exact absurd hrun2 (by simp)
    | some p =>
      rw [hdel] at hrun2
      simp only [Option.map_some'] at hrun2
      injection hrun2 with hrun'
      obtain ⟨rr, st⟩ := p
      subst hrun'
      exact tcInv_delete F s qq rr st h hdel

theorem tcInv_foldOps (F : List (List Nat)) (ms mo : Nat) (hF : PrefixFreeFam F) :
    ∀ (ops : List CacheOp) (s : ThemeCache) (s' : ThemeCache), TCInv F s →
    (∀ op ∈ ops, op.seqOf ∈ F) →
    ops.foldlM (fun s op => runOp ms mo s op) s = some s' → TCInv F s'
  | [], s, s', h, _, hrun => by
    injection hrun with hrun'
    subst hrun'
    exact h
  | op :: rest, s, s', h, hmem, hrun => by
    have hrun2 : (runOp ms mo s op).bind
      (fun s1 => rest.foldlM (fun s op => runOp ms mo s op) s1) = some s' := hrun
    cases hr : runOp ms mo s op with
    | none => rw [hr] at hrun2; exact absurd hrun2 (by simp)
    | some s1 =>
      rw [hr, Option.some_bind] at hrun2
      exact tcInv_foldOps F ms mo hF rest s1 s'
        (tcInv_runOp F ms mo s op s1 hF h (hmem op (by simp)) hr)
        (fun o ho => hmem o (by simp [ho])) hrun2

theorem tcInv_runOps (F : List (List Nat)) (ms mo : Nat) (ops : List CacheOp)
    (s' : ThemeCache) (hF : PrefixFreeFam F) (hmem : ∀ op ∈ ops, op.seqOf ∈ F)
    (hrun : runOps ms mo ops = some s') : TCInv F s' :=
  tcInv_foldOps F ms mo hF ops ThemeCache.fresh s' (tcInv_fresh F) hmem hrun

/-! ## Claim C1: registry size vs. reachable leaves -/

/-- C1 counterexample: on a fresh instance (default capacity 20 + 5), `set
[0,1]` followed by `set [0]` completes normally, yet leaves the registry with
2 sequences while the trie holds a single reachable leaf — writing `[0]`
replaces the final node with a pure leaf and drops the `[0,1]` subtree, so
`size()` and the number of reachable leaves disagree after a completed call. -/
theorem c1_size_leaves_counterexample :
    (runOps ThemeCache.MAX_CACHE_SIZE ThemeCache.MAX_CACHE_OFFSET
        [CacheOp.insertOp [0, 1] 7, CacheOp.insertOp [0] 8]).map
      (fun s => (s.size, s.cache.leaves.length)) = some (2, 1) ∧ (2 : Nat) ≠ 1 := by
  constructor
  · rfl
  · decide

/-- C1 amended: for every sequence of ThemeCache operations (has/get/set/
delete) on non-empty derivative sequences **no one of which is a proper
prefix of another**, starting from a fresh instance, after each completed
call the number of registered key sequences (`size()`) equals the number of
reachable leaves in the trie.  (Quantifying over all such traces covers every
intermediate state, since every prefix of such a trace is such a trace.) -/
theorem c1_size_eq_leaves (ms mo : Nat) (ops : List CacheOp)
    (hne : ∀ op ∈ ops, op.seqOf ≠ [])
    (hpf : ∀ op ∈ ops, ∀ op2 ∈ ops, op.seqOf <+: op2.seqOf → op.seqOf = op2.seqOf)
    (s' : ThemeCache) (h : runOps ms mo ops = some s') :
    s'.size = s'.cache.leaves.length := by
  have hF : PrefixFreeFam (ops.map CacheOp.seqOf) := by
    constructor
    · intro p hp
      obtain ⟨op, hop, rfl⟩ := List.mem_map.1 hp
      exact hne op hop
    · intro p hp q hq hpq
      obtain ⟨op, hop, rfl⟩ := List.mem_map.1 hp
      obtain ⟨op2, hop2, rfl⟩ := List.mem_map.1 hq
      exact hpf op hop op2 hop2 hpq
  have hinv := tcInv_runOps (ops.map CacheOp.seqOf) ms mo ops s' hF
    (fun op hop => List.mem_map.2 ⟨op, hop, rfl⟩) h
  show s'.keys.length = s'.cache.leaves.length
  exact (hinv.2.2.1.length_eq).symm

/-- C1 witness: a one-insert trace, where the registry and the trie both
hold exactly one entry. -/
theorem c1_size_eq_leaves_witness :
    (ThemeCache.mk (TMap.cons 0 (TNode.mk none (some (5, 0))) TMap.nil) [[0]] 1).size
      = (ThemeCache.mk (TMap.cons 0 (TNode.mk none (some (5, 0))) TMap.nil)
          [[0]] 1).cache.leaves.length :=
  c1_size_eq_leaves 20 5 [CacheOp.insertOp [0] 5] (by decide) (by decide)
    (ThemeCache.mk (TMap.cons 0 (TNode.mk none (some (5, 0))) TMap.nil) [[0]] 1) rfl

/-! ## Claim C5: no reachable empty node -/

/-- C5 counterexample: `set [0]`, `set [0,1]`, `delete [0,1]`, `delete [0]`
all complete, yet the final trie retains the reachable node for key `0` with
an *empty* child map and no leaf value: the deletion endpoint keeps
`{ map: cache.map }` because the emptied (but truthy) `Map` is set, so a
reachable node holding neither children nor a value survives. -/
theorem c5_empty_node_counterexample :
    (runOps ThemeCache.MAX_CACHE_SIZE ThemeCache.MAX_CACHE_OFFSET
        [CacheOp.insertOp [0] 1, CacheOp.insertOp [0, 1] 2,
         CacheOp.removeOp [0, 1], CacheOp.removeOp [0]]).map
      (fun s => (s.cache.allNodesHold, s.cache)) =
      some (false, TMap.cons 0 (TNode.mk (some TMap.nil) none) TMap.nil) := by
  rfl

/-- C5 amended: for every sequence of ThemeCache set/delete (and has/get)
operations on non-empty derivative sequences **no one of which is a proper
prefix of another**, every node reachable in the trie holds children, a leaf
value, or both — never neither: under that restriction delete's recursive
pruning removes every emptied intermediate node, and deleting the sole leaf
under a multi-level path leaves no reachable empty node. -/
theorem c5_no_empty_nodes (ms mo : Nat) (ops : List CacheOp)
    (hne : ∀ op ∈ ops, op.seqOf ≠ [])
    (hpf : ∀ op ∈ ops, ∀ op2 ∈ ops, op.seqOf <+: op2.seqOf → op.seqOf = op2.seqOf)
    (s' : ThemeCache) (h : runOps ms mo ops = some s') :
    s'.cache.allNodesHold = true := by
  have hF : PrefixFreeFam (ops.map CacheOp.seqOf) := by
    constructor
    · intro p hp
      obtain ⟨op, hop, rfl⟩ := List.mem_map.1 hp
      exact hne op hop
    · intro p hp q hq hpq
      obtain ⟨op, hop, rfl⟩ := List.mem_map.1 hp
      obtain ⟨op2, hop2, rfl⟩ := List.mem_map.1 hq
      exact hpf op hop op2 hop2 hpq
  have hinv := tcInv_runOps (ops.map CacheOp.seqOf) ms mo ops s' hF
    (fun op hop => List.mem_map.2 ⟨op, hop, rfl⟩) h
  exact map_good_holds s'.cache hinv.2.2.2

/-- C5 witness: deleting the sole leaf under a multi-level path (a
prefix-free trace) leaves a trie with every reachable node holding
something — here the trie is empty. -/
theorem c5_no_empty_nodes_witness :
    (ThemeCache.mk TMap.nil [] 1).cache.allNodesHold = true :=
  c5_no_empty_nodes 20 5 [CacheOp.insertOp [0, 1] 3, CacheOp.removeOp [0, 1]]
    (by decide) (by decide) (ThemeCache.mk TMap.nil [] 1) rfl

/-! ## Stamps -/

theorem stamps_nil : TMap.nil.stamps = [] := rfl

theorem stamps_cons (k : Nat) (n : TNode) (rest : TMap) :
    (TMap.cons k n rest).stamps = n.stamps ++ rest.stamps := rfl

theorem stamps_setEntry_mem : ∀ (m : TMap) (d : Nat) (n' : TNode) (x : Nat),
    x ∈ (m.setEntry d n').stamps → x ∈ m.stamps ∨ x ∈ n'.stamps
  | .nil, d, n', x, h => by
    rw [show TMap.nil.setEntry d n' = TMap.cons d n' TMap.nil from rfl,
      stamps_cons, stamps_nil] at h
    exact Or.inr (by simpa using h)
  | .cons k nn rest, d, n', x, h => by
    by_cases hk : k = d
    · rw [show (TMap.cons k nn rest).setEntry d n' = TMap.cons k n' rest from by
        simp [TMap.setEntry, hk], stamps_cons] at h
      rcases List.mem_append.1 h with h | h
      · exact Or.inr h
      · exact Or.inl (by rw [stamps_cons]; exact List.mem_append.2 (Or.inr h))
    · rw [show (TMap.cons k nn rest).setEntry d n' = TMap.cons k nn (rest.setEntry d n')
        from by simp [TMap.setEntry, hk], stamps_cons] at h
      rcases List.mem_append.1 h with h | h
      · exact Or.inl (by rw [stamps_cons]; exact List.mem_append.2 (Or.inl h))
      · rcases stamps_setEntry_mem rest d n' x h with h' | h'
        · exact Or.inl (by rw [stamps_cons]; exact List.mem_append.2 (Or.inr h'))
        · exact Or.inr h'

theorem stamps_eraseKey_mem : ∀ (m : TMap) (d : Nat) (x : Nat),
    x ∈ (m.eraseKey d).stamps → x ∈ m.stamps
  | .nil, d, x, h => by simpa [TMap.eraseKey] using h
  | .cons k nn rest, d, x, h => by
    by_cases hk : k = d
    · rw [show (TMap.cons k nn rest).eraseKey d = rest from by simp [TMap.eraseKey, hk]] at h
      rw [stamps_cons]
      exact List.mem_append.2 (Or.inr h)
    · rw [show (TMap.cons k nn rest).eraseKey d = TMap.cons k nn (rest.eraseKey d) from by
        simp [TMap.eraseKey, hk], stamps_cons] at h
      rw [stamps_cons]
      rcases List.mem_append.1 h with h | h
      · exact List.mem_append.2 (Or.inl h)
      · exact List.mem_append.2 (Or.inr (stamps_eraseKey_mem rest d x h))

theorem node_stamps_mk (mo : Option TMap) (vo : Option (Nat × Nat)) :
    (TNode.mk mo vo).stamps =
      (match vo with | some p => [p.2] | none => []) ++
      (match mo with | some mm => mm.stamps | none => []) := by
  cases mo <;> cases vo <;> rfl

theorem stamps_lookup_mem : ∀ (m : TMap) (d : Nat) (n : TNode) (x : Nat),
    m.lookup d = some n → x ∈ n.stamps → x ∈ m.stamps
  | .nil, d, n, x, h, _ => by simp [TMap.lookup] at h
  | .cons k nn rest, d, n, x, h, hx => by
    simp only [TMap.lookup] at h
    rw [stamps_cons]
    by_cases hk : k = d
    · rw [if_pos hk] at h
      injection h with h'
      subst h'
      exact List.mem_append.2 (Or.inl hx)
    · rw [if_neg hk] at h
      exact List.mem_append.2 (Or.inr (stamps_lookup_mem rest d n x h hx))

theorem stamps_writePath_mem : ∀ (seq : List Nat) (m : TMap) (v t : Nat) (x : Nat),
    x ∈ (writePath m seq v t).stamps → x ∈ m.stamps ∨ x = t
  | [], m, v, t, x, h => Or.inl h
  | [d], m, v, t, x, h => by
    rcases stamps_setEntry_mem m d _ x h with h' | h'
    · exact Or.inl h'
    · rw [node_stamps_mk] at h'
      simp at h'
      exact Or.inr h'
  | d :: e :: l, m, v, t, x, h => by
    have hmatch : writePath m (d :: e :: l) v t =
        (match m.lookup d with
         | none => m.setEntry d (TNode.mk (some (writePath TMap.nil (e :: l) v t)) none)
         | some n =>
           m.setEntry d
             (TNode.mk (some (writePath (n.map.getD TMap.nil) (e :: l) v t)) n.value)) := rfl
    rw [hmatch] at h
    cases hl : m.lookup d with
    | none =>
      rw [hl] at h
      rcases stamps_setEntry_mem m d _ x h with h' | h'
      · exact Or.inl h'
      · rw [node_stamps_mk] at h'
        simp only [List.nil_append] at h'
        rcases stamps_writePath_mem (e :: l) TMap.nil v t x (by simpa using h') with h2 | h2
        · rw [stamps_nil] at h2; simp at h2
        · exact Or.inr h2
    | some n =>
      rw [hl] at h
      rcases stamps_setEntry_mem m d _ x h with h' | h'
      · exact Or.inl h'
      · rw [node_stamps_mk] at h'
        rcases List.mem_append.1 h' with h2 | h2
        · left
          refine stamps_lookup_mem m d n x hl ?_
          obtain ⟨mo, vo⟩ := n
          rw [node_stamps_mk]
          exact List.mem_append.2 (Or.inl h2)
        · rcases stamps_writePath_mem (e :: l) (n.map.getD TMap.nil) v t x h2 with h3 | h3
          · cases hm : n.map with
            | none =>
              rw [hm] at h3
              rw [show (none : Option TMap).getD TMap.nil = TMap.nil from rfl,
                stamps_nil] at h3
              simp at h3
            | some mm =>
              rw [hm] at h3
              rw [show (some mm).getD TMap.nil = mm from rfl] at h3
              left
              refine stamps_lookup_mem m d n x hl ?_
              obtain ⟨mo, vo⟩ := n
              rw [node_stamps_mk]
              refine List.mem_append.2 (Or.inr ?_)
              have hmo : mo = some mm := hm
              rw [hmo]
              exact h3
          · exact Or.inr h3

theorem stamps_stampAt_mem : ∀ (seq : List Nat) (m : TMap) (t : Nat) (x : Nat),
    x ∈ (stampAt m seq t).stamps → x ∈ m.stamps ∨ x = t
  | [], m, t, x, h => Or.inl h
  | [d], m, t, x, h => by
    have hmatch : stampAt m [d] t =
        (match m.lookup d with
         | some (TNode.mk mm (some v)) => m.setEntry d (TNode.mk mm (some (v.1, t)))
         | _ => m) := rfl
    rw [hmatch] at h
    cases hl : m.lookup d with
    | none => rw [hl] at h; exact Or.inl h
    | some n =>
      obtain ⟨mo, vo⟩ := n
      cases hv : vo with
      | none => rw [hl, hv] at h; exact Or.inl h
      | some w =>
        rw [hl, hv] at h
        rw [hv] at hl
        rcases stamps_setEntry_mem m d _ x h with h' | h'
        · exact Or.inl h'
        · rw [node_stamps_mk] at h'
          rcases List.mem_append.1 h' with h2 | h2
          · simp at h2
            exact Or.inr h2
          · left
            refine stamps_lookup_mem m d (TNode.mk mo (some w)) x hl ?_
            rw [node_stamps_mk]
            exact List.mem_append.2 (Or.inr h2)
  | d :: e :: l, m, t, x, h => by
    have hmatch : stampAt m (d :: e :: l) t =
        (match m.lookup d with
         | some (TNode.mk (some mm) v) =>
           m.setEntry d (TNode.mk (some (stampAt mm (e :: l) t)) v)
         | _ => m) := rfl
    rw [hmatch] at h
    cases hl : m.lookup d with
    | none => rw [hl] at h; exact Or.inl h
    | some n =>
      obtain ⟨mo, vo⟩ := n
      cases hm : mo with
      | none => rw [hl, hm] at h; exact Or.inl h
      | some mm =>
        rw [hl, hm] at h
        rcases stamps_setEntry_mem m d _ x h with h' | h'
        · exact Or.inl h'
        · rw [node_stamps_mk] at h'
          rcases List.mem_append.1 h' with h2 | h2
          · left
            refine stamps_lookup_mem m d (TNode.mk (some mm) vo) x (hm ▸ hl) ?_
            rw [node_stamps_mk]
            exact List.mem_append.2 (Or.inl h2)
          · rcases stamps_stampAt_mem (e :: l) mm t x h2 with h3 | h3
            · left
              refine stamps_lookup_mem m d (TNode.mk (some mm) vo) x (hm ▸ hl) ?_
              rw [node_stamps_mk]
              exact List.mem_append.2 (Or.inr h3)
            · exact Or.inr h3

theorem stamps_deleteByPath_mem : ∀ (seq : List Nat) (m : TMap) (r : Option Nat)
    (m' : TMap) (x : Nat), deleteByPath m seq = some (r, m') →
    x ∈ m'.stamps → x ∈ m.stamps
  | [], m, r, m', x, h, _ => by simp [deleteByPath] at h
  | [d], m, r, m', x, h, hx => by
    have hmatch : deleteByPath m [d] =
        (match m.lookup d with
         | none => none
         | some n =>
           match n.map with
           | none => some (n.value.map Prod.fst, m.eraseKey d)
           | some mm => some (n.value.map Prod.fst, m.setEntry d (TNode.mk (some mm) none))
          ) := rfl
    rw [hmatch] at h
    cases hl : m.lookup d with
    | none => rw [hl] at h; exact absurd h (by simp)
    | some n =>
      rw [hl] at h
      have h2 : (match n.map with
         | none => some (n.value.map Prod.fst, m.eraseKey d)
         | some mm =>
           some (n.value.map Prod.fst, m.setEntry d (TNode.mk (some mm) none)))
          = some (r, m') := h
      cases hm : n.map with
      | none =>
        rw [hm] at h2
        injection h2 with h'
        injection h' with h1 hstate
        subst hstate
        exact stamps_eraseKey_mem m d x hx
      | some mm =>
        rw [hm] at h2
        injection h2 with h'
        injection h' with h1 hstate
        subst hstate
        rcases stamps_setEntry_mem m d _ x hx with h' | h'
        · exact h'
        · rw [node_stamps_mk] at h'
          simp only [List.nil_append] at h'
          refine stamps_lookup_mem m d n x hl ?_
          obtain ⟨mo, vo⟩ := n
          have hmo : mo = some mm := hm
          rw [node_stamps_mk, hmo]
          exact List.mem_append.2 (Or.inr (by simpa using h'))
  | d :: e :: l, m, r, m', x, h, hx => by
    have hmatch : deleteByPath m (d :: e :: l) =
        (match m.lookup d with
         | none => none
         | some n =>
           match n.map with
           | none => none
           | some mm =>
             (deleteByPath mm (e :: l)).map (fun (p : Option Nat × TMap) =>
               if p.2.isNil && n.value.isNone then (p.1, m.eraseKey d)
               else (p.1, m.setEntry d (TNode.mk (some p.2) n.value)))) := rfl
    rw [hmatch] at h
    cases hl : m.lookup d with
    | none => rw [hl] at h; exact absurd h (by simp)
    | some n =>
      rw [hl] at h
      have h2 : (match n.map with
         | none => none
         | some mm =>
           (deleteByPath mm (e :: l)).map (fun (p : Option Nat × TMap) =>
             if p.2.isNil && n.value.isNone then (p.1, m.eraseKey d)
             else (p.1, m.setEntry d (TNode.mk (some p.2) n.value))))
          = some (r, m') := h
      cases hm : n.map with
      | none => rw [hm] at h2; exact absurd h2 (by simp)
      | some mm =>
        rw [hm] at h2
        have h3 : ((deleteByPath mm (e :: l)).map (fun (p : Option Nat × TMap) =>
             if p.2.isNil && n.value.isNone then (p.1, m.eraseKey d)
             else (p.1, m.setEntry d (TNode.mk (some p.2) n.value)))) = some (r, m') := h2
        cases hrec : deleteByPath mm (e :: l) with
        | none => rw [hrec] at h3; exact absurd h3 (by simp)
        | some p =>
          rw [hrec] at h3
          simp only [Option.map_some'] at h3
          injection h3 with h'
          by_cases hcond : (p.2.isNil && n.value.isNone) = true
          · rw [if_pos hcond] at h'
            injection h' with h1 hstate
            subst hstate
            exact stamps_eraseKey_mem m d x hx
          · rw [if_neg hcond] at h'
            injection h' with h1 hstate
            subst hstate
            rcases stamps_setEntry_mem m d _ x hx with h2 | h2
            · exact h2
            · rw [node_stamps_mk] at h2
              rcases List.mem_append.1 h2 with h3 | h3
              · refine stamps_lookup_mem m d n x hl ?_
                obtain ⟨mo, vo⟩ := n
                rw [node_stamps_mk]
                exact List.mem_append.2 (Or.inl h3)
              · have h4 : x ∈ mm.stamps :=
                  stamps_deleteByPath_mem (e :: l) mm p.1 p.2 x (by rw [hrec]) h3
                refine stamps_lookup_mem m d n x hl ?_
                obtain ⟨mo, vo⟩ := n
                have hmo : mo = some mm := hm
                rw [node_stamps_mk, hmo]
                exact List.mem_append.2 (Or.inr h4)
  termination_by seq => seq.length

theorem iga_writePath : ∀ (seq : List Nat) (m : TMap) (v t : Nat), seq ≠ [] →
    (internalGetAux (writePath m seq v t) seq).bind TNode.value = some (v, t)
  | [], _, _, _, h => absurd rfl h
  | [d], m, v, t, _ => by
    rw [iga_single]
    rw [show writePath m [d] v t = m.setEntry d (TNode.mk none (some (v, t))) from rfl]
    rw [lookup_setEntry_self]
    rfl
  | d :: e :: l, m, v, t, _ => by
    rw [iga_cons_cons]
    have hmatch : writePath m (d :: e :: l) v t =
        (match m.lookup d with
         | none => m.setEntry d (TNode.mk (some (writePath TMap.nil (e :: l) v t)) none)
         | some n =>
           m.setEntry d
             (TNode.mk (some (writePath (n.map.getD TMap.nil) (e :: l) v t)) n.value)) := rfl
    cases hl : m.lookup d with
    | none =>
      rw [hmatch, hl, lookup_setEntry_self, Option.some_bind]
      rw [show (TNode.mk (some (writePath TMap.nil (e :: l) v t)) none).map
        = some (writePath TMap.nil (e :: l) v t) from rfl, Option.some_bind]
      exact iga_writePath (e :: l) TMap.nil v t (by simp)
    | some n =>
      rw [hmatch, hl, lookup_setEntry_self, Option.some_bind]
      rw [show (TNode.mk (some (writePath (n.map.getD TMap.nil) (e :: l) v t)) n.value).map
        = some (writePath (n.map.getD TMap.nil) (e :: l) v t) from rfl, Option.some_bind]
      exact iga_writePath (e :: l) (n.map.getD TMap.nil) v t (by simp)

/-- All stamps stored in the instance are below the access counter — true of
every reachable instance, since the counter only moves up and stamps are
always written from the counter. -/
def stampsBelow (s : ThemeCache) : Prop :=
  ∀ x ∈ s.cache.stamps, x < s.cacheCallTimes

theorem stamps_delete_mem (s : ThemeCache) (q : List Nat) (r : Option Nat)
    (s' : ThemeCache) (hdel : s.delete q = some (r, s')) (x : Nat)
    (hx : x ∈ s'.cache.stamps) : x ∈ s.cache.stamps := by
  by_cases hhas : s.has q = true
  · unfold ThemeCache.delete at hdel
    rw [hhas, if_pos rfl] at hdel
    cases hd2 : deleteByPath s.cache q with
    | none => rw [hd2] at hdel; exact absurd hdel (by simp)
    | some p =>
      rw [hd2] at hdel
      simp only [Option.map_some'] at hdel
      injection hdel with hdel'
      injection hdel' with h1 h2
      subst h2
      exact stamps_deleteByPath_mem q s.cache p.1 p.2 x (by rw [hd2]) hx
  · rw [delete_of_not_has s q (Bool.not_eq_true _ ▸ hhas : s.has q = false)] at hdel
    injection hdel with hdel'
    injection hdel' with h1 h2
    subst h2
    exact hx

/-! ## Claim C6: the access counter totally orders recency -/

/-- C6: each touch (a `get` that finds a leaf, or a `set` writing a leaf)
stamps that leaf with the current access-counter value, which is strictly
greater than every stamp currently stored in the instance (given the
counter-dominance invariant `stampsBelow`, itself preserved by both
operations, so stamps totally order recency); and the `internalGet` call
underlying `has` never changes the state — no stamp and not the counter. -/
theorem c6_stamp_monotone :
    (∀ (s : ThemeCache) (q : List Nat), (s.internalGet q false).2 = s)
    ∧ (∀ (s : ThemeCache) (q : List Nat),
        s.has q = ((s.internalGet q false).1).isSome)
    ∧ (∀ (s : ThemeCache) (q : List Nat) (w : Nat × Nat), stampsBelow s →
        (internalGetAux s.cache q).bind TNode.value = some w →
        (s.internalGet q true).1 = some (w.1, s.cacheCallTimes) ∧
        (∀ x ∈ s.cache.stamps, x < s.cacheCallTimes) ∧
        (s.internalGet q true).2.cacheCallTimes = s.cacheCallTimes + 1 ∧
        stampsBelow (s.internalGet q true).2)
    ∧ (∀ (ms mo : Nat) (s : ThemeCache) (q : List Nat) (v : Nat) (s' : ThemeCache),
        stampsBelow s → q ≠ [] → ThemeCache.set ms mo s q v = some s' →
        (internalGetAux s'.cache q).bind TNode.value = some (v, s.cacheCallTimes) ∧
        (∀ x ∈ s.cache.stamps, x < s.cacheCallTimes) ∧
        s'.cacheCallTimes = s.cacheCallTimes + 1 ∧
        stampsBelow s') := by
  refine ⟨internalGet_false_snd, fun s q => rfl, ?_, ?_⟩
  · intro s q w hsb hfound
    rw [internalGet_true_found s q w hfound]
    refine ⟨rfl, hsb, rfl, ?_⟩
    intro x hx
    show x < s.cacheCallTimes + 1
    rcases stamps_stampAt_mem q s.cache s.cacheCallTimes x hx with h' | h'
    · exact Nat.lt_trans (hsb x h') (Nat.lt_succ_self _)
    · exact h' ▸ Nat.lt_succ_self _
  · intro ms mo s q v s' hsb hne hset
    by_cases hhas : s.has q = true
    · rw [set_of_has ms mo s q v hhas hne] at hset
      injection hset with hset'
      subst hset'
      refine ⟨iga_writePath q s.cache v s.cacheCallTimes hne, hsb, rfl, ?_⟩
      intro x hx
      show x < s.cacheCallTimes + 1
      rcases stamps_writePath_mem q s.cache v s.cacheCallTimes x hx with h' | h'
      · exact Nat.lt_trans (hsb x h') (Nat.lt_succ_self _)
      · exact h' ▸ Nat.lt_succ_self _
    · have hhas' : s.has q = false := Bool.not_eq_true _ ▸ hhas
      by_cases hsz : s.size + 1 > ms + mo
      · cases hscan : evictScan s with
        | none =>
          unfold ThemeCache.set at hset
          simp [hhas', hsz, hscan] at hset
        | some tk =>
          cases hdel : s.delete tk with
          | none =>
            unfold ThemeCache.set at hset
            simp [hhas', hsz, hscan, hdel] at hset
          | some rs1 =>
            obtain ⟨rr, s1⟩ := rs1
            rw [set_evict ms mo s q v tk rr s1 hhas' hsz hscan hdel hne] at hset
            injection hset with hset'
            subst hset'
            have hc1 : s1.cacheCallTimes = s.cacheCallTimes :=
              (delete_counter_and_sub s tk rr s1 hdel).1
            refine ⟨?_, hsb, by rw [hc1], ?_⟩
            · rw [← hc1]
              exact iga_writePath q s1.cache v s1.cacheCallTimes hne
            · intro x hx
              show x < s1.cacheCallTimes + 1
              rcases stamps_writePath_mem q s1.cache v s1.cacheCallTimes x hx with h' | h'
              · have := hsb x (stamps_delete_mem s tk rr s1 hdel x h')
                rw [hc1]
                exact Nat.lt_trans this (Nat.lt_succ_self _)
              · exact h' ▸ Nat.lt_succ_self _
      · rw [set_noEvict ms mo s q v hhas' hsz hne] at hset
        injection hset with hset'
        subst hset'
        refine ⟨iga_writePath q s.cache v s.cacheCallTimes hne, hsb, rfl, ?_⟩
        intro x hx
        show x < s.cacheCallTimes + 1
        rcases stamps_writePath_mem q s.cache v s.cacheCallTimes x hx with h' | h'
        · exact Nat.lt_trans (hsb x h') (Nat.lt_succ_self _)
        · exact h' ▸ Nat.lt_succ_self _

/-- C6 witness: on the one-entry instance obtained by a single `set [0]`,
`get [0]` returns the stored value stamped with the current counter, strictly
above the existing stamp, and `set [1]` writes a fresh dominating stamp;
`has`'s underlying call leaves the state untouched. -/
theorem c6_stamp_monotone_witness :
    ((ThemeCache.mk (TMap.cons 0 (TNode.mk none (some (5, 0))) TMap.nil)
        [[0]] 1).internalGet [0] false).2
      = ThemeCache.mk (TMap.cons 0 (TNode.mk none (some (5, 0))) TMap.nil) [[0]] 1 ∧
    ((ThemeCache.mk (TMap.cons 0 (TNode.mk none (some (5, 0))) TMap.nil)
        [[0]] 1).internalGet [0] true).1 = some (5, 1) := by
  constructor
  · exact c6_stamp_monotone.1 _ [0]
  · exact (c6_stamp_monotone.2.2.1
      (ThemeCache.mk (TMap.cons 0 (TNode.mk none (some (5, 0))) TMap.nil) [[0]] 1)
      [0] (5, 0)
      (by
        intro x hx
        have hx0 : x ∈ [(0 : Nat)] := hx
        simp at hx0
        subst hx0
        decide) rfl).1

/-! ## The eviction scan computes the first stamp-minimal registered key -/

theorem has_eq_stampOfB_isSome (s : ThemeCache) (k : List Nat) :
    s.has k = (stampOfB s k).isSome := by
  rw [has_eq_isSome]
  unfold stampOfB
  cases (internalGetAux s.cache k).bind TNode.value <;> rfl

theorem deleteByPath_isSome : ∀ (seq : List Nat) (m : TMap),
    ((internalGetAux m seq).bind TNode.value).isSome = true →
    (deleteByPath m seq).isSome = true
  | [], m, h => by
    rw [iga_nil] at h
    exact absurd h (by simp [TNode.value])
  | [d], m, h => by
    rw [iga_single] at h
    cases hl : m.lookup d with
    | none => rw [hl] at h; exact absurd h (by simp)
    | some n =>
      show (match m.lookup d with
        | none => none
        | some n =>
          match n.map with
          | none => some (n.value.map Prod.fst, m.eraseKey d)
          | some mm => some (n.value.map Prod.fst, m.setEntry d (TNode.mk (some mm) none))
        ).isSome = true
      rw [hl]
      obtain ⟨mo, vo⟩ := n
      cases mo <;> rfl
  | d :: e :: l, m, h => by
    rw [iga_cons_cons] at h
    cases hl : m.lookup d with
    | none => rw [hl] at h; exact absurd h (by simp)
    | some n =>
      rw [hl, Option.some_bind] at h
      show (match m.lookup d with
        | none => none
        | some n =>
          match n.map with
          | none => none
          | some mm =>
            (deleteByPath mm (e :: l)).map (fun (p : Option Nat × TMap) =>
              if p.2.isNil && n.value.isNone then (p.1, m.eraseKey d)
              else (p.1, m.setEntry d (TNode.mk (some p.2) n.value)))).isSome = true
      rw [hl]
      obtain ⟨mo, vo⟩ := n
      cases hm : mo with
      | none =>
        rw [show (TNode.mk mo vo).map = mo from rfl, hm] at h
        exact absurd h (by simp)
      | some mm =>
        rw [show (TNode.mk mo vo).map = mo from rfl, hm, Option.some_bind] at h
        have hrec := deleteByPath_isSome (e :: l) mm h
        subst hm
        cases hdp : deleteByPath mm (e :: l) with
        | none => rw [hdp] at hrec; exact absurd hrec (by simp)
        | some p =>
          show ((deleteByPath mm (e :: l)).map _).isSome = true
          rw [hdp]
          rfl

/-- `tk` is the first entry of the registry attaining the minimal stamp. -/
def FirstMinStamp (s : ThemeCache) (tk : List Nat) : Prop :=
  ∃ i, i < s.keys.length ∧ tk = s.keys.getD i [] ∧
    (∀ j, j < s.keys.length → stampOfD s tk ≤ stampOfD s (s.keys.getD j [])) ∧
    (∀ j, j < i → stampOfD s tk < stampOfD s (s.keys.getD j []))

theorem foldl_argmin (stamp : List Nat → Nat) :
    ∀ (l : List (List Nat)) (b : List Nat × Nat),
    (l.foldl (fun res key => if stamp key < res.2 then (key, stamp key) else res) b = b ∧
      ∀ k ∈ l, b.2 ≤ stamp k)
    ∨ (∃ i, i < l.length ∧
        l.foldl (fun res key => if stamp key < res.2 then (key, stamp key) else res) b
          = (l.getD i [], stamp (l.getD i [])) ∧
        stamp (l.getD i []) < b.2 ∧
        (∀ j, j < l.length → stamp (l.getD i []) ≤ stamp (l.getD j [])) ∧
        (∀ j, j < i → stamp (l.getD i []) < stamp (l.getD j [])))
  | [], b => Or.inl ⟨rfl, by simp⟩
  | x :: xs, b => by
    rw [List.foldl_cons]
    by_cases hx : stamp x < b.2
    · rw [if_pos hx]
      rcases foldl_argmin stamp xs (x, stamp x) with ⟨hfold, hbound⟩ | ⟨i, hi, hfold, hlt, hmin, hfirst⟩
      · refine Or.inr ⟨0, by simp, ?_, ?_, ?_, ?_⟩
        · rw [List.getD_cons_zero]
          exact hfold
        · rw [List.getD_cons_zero]
          exact hx
        · intro j hj
          rw [List.getD_cons_zero]
          cases j with
          | zero => rw [List.getD_cons_zero]
          | succ j' =>
            rw [List.getD_cons_succ]
            have hj' : j' < xs.length := by simpa using hj
            refine hbound _ ?_
            rw [List.getD_eq_getElem xs [] hj']
            exact List.getElem_mem hj'
        · intro j hj
          exact absurd hj (by simp)
      · refine Or.inr ⟨i + 1, by simpa using hi, ?_, ?_, ?_, ?_⟩
        · rw [List.getD_cons_succ]
          exact hfold
        · rw [List.getD_cons_succ]
          exact Nat.lt_trans hlt hx
        · intro j hj
          rw [List.getD_cons_succ]
          cases j with
          | zero =>
            rw [List.getD_cons_zero]
            exact Nat.le_of_lt hlt
          | succ j' =>
            rw [List.getD_cons_succ]
            exact hmin j' (by simpa using hj)
        · intro j hj
          rw [List.getD_cons_succ]
          cases j with
          | zero =>
            rw [List.getD_cons_zero]
            exact hlt
          | succ j' =>
            rw [List.getD_cons_succ]
            exact hfirst j' (by simpa using hj)
    · rw [if_neg hx]
      rcases foldl_argmin stamp xs b with ⟨hfold, hbound⟩ | ⟨i, hi, hfold, hlt, hmin, hfirst⟩
      · refine Or.inl ⟨hfold, ?_⟩
        intro k hk
        rcases List.mem_cons.1 hk with hk | hk
        · exact hk ▸ Nat.le_of_not_lt hx
        · exact hbound k hk
      · refine Or.inr ⟨i + 1, by simpa using hi, ?_, ?_, ?_, ?_⟩
        · rw [List.getD_cons_succ]
          exact hfold
        · rw [List.getD_cons_succ]
          exact hlt
        · intro j hj
          rw [List.getD_cons_succ]
          cases j with
          | zero =>
            rw [List.getD_cons_zero]
            exact Nat.le_trans (Nat.le_of_lt hlt) (Nat.le_of_not_lt hx)
          | succ j' =>
            rw [List.getD_cons_succ]
            exact hmin j' (by simpa using hj)
        · intro j hj
          rw [List.getD_cons_succ]
          cases j with
          | zero =>
            rw [List.getD_cons_zero]
            exact Nat.lt_of_lt_of_le hlt (Nat.le_of_not_lt hx)
          | succ j' =>
            rw [List.getD_cons_succ]
            exact hfirst j' (by simpa using hj)

theorem foldlM_evict_eq_foldl (s : ThemeCache) : ∀ (l : List (List Nat)) (b : List Nat × Nat),
    (∀ k ∈ l, (stampOfB s k).isSome = true) →
    (l.foldlM (fun (res : List Nat × Nat) key => do
        let st ← stampOfB s key
        pure (if st < res.2 then (key, st) else res)) b : Option (List Nat × Nat))
      = some (l.foldl (fun (res : List Nat × Nat) key =>
          if stampOfD s key < res.2 then (key, stampOfD s key) else res) b)
  | [], b, _ => rfl
  | x :: xs, b, hall => by
    obtain ⟨st, hst⟩ := Option.isSome_iff_exists.1 (hall x (by simp))
    rw [List.foldlM_cons, List.foldl_cons]
    have hstD : stampOfD s x = st := by rw [stampOfD, hst]; rfl
    show ((stampOfB s x).bind fun st =>
        some (if st < b.2 then (x, st) else b)).bind _ = _
    rw [hst, Option.some_bind, Option.some_bind, hstD]
    exact foldlM_evict_eq_foldl s xs _ (fun k hk => hall k (by simp [hk]))

theorem evictScan_spec (s : ThemeCache) (hne : s.keys ≠ [])
    (hGR : ∀ k ∈ s.keys, (stampOfB s k).isSome = true)
    (hsb : ∀ k ∈ s.keys, stampOfD s k < s.cacheCallTimes) :
    ∃ tk, evictScan s = some tk ∧ FirstMinStamp s tk := by
  have hh : s.keys.head? = some (s.keys.head hne) := List.head?_eq_head hne
  have hfold := foldlM_evict_eq_foldl s s.keys (s.keys.head hne, s.cacheCallTimes) hGR
  have hscan : evictScan s = some ((s.keys.foldl
      (fun (res : List Nat × Nat) key =>
        if stampOfD s key < res.2 then (key, stampOfD s key) else res)
      (s.keys.head hne, s.cacheCallTimes)).1) := by
    unfold evictScan
    rw [hh]
    show (s.keys.foldlM (fun (res : List Nat × Nat) key => do
        let st ← stampOfB s key
        pure (if st < res.2 then (key, st) else res))
        (s.keys.head hne, s.cacheCallTimes)).bind (fun r => some r.1) = _
    rw [hfold, Option.some_bind]
  rcases foldl_argmin (stampOfD s) s.keys (s.keys.head hne, s.cacheCallTimes)
    with ⟨hfold', hbound⟩ | ⟨i, hi, hfold', hlt, hmin, hfirst⟩
  · exfalso
    have hhead : s.keys.head hne ∈ s.keys := List.head_mem hne
    exact absurd (hbound _ hhead) (Nat.not_le_of_lt (hsb _ hhead))
  · refine ⟨s.keys.getD i [], ?_, ⟨i, hi, rfl, hmin, hfirst⟩⟩
    rw [hscan, hfold']

/-! ## Claim C3: capacity check and LRU eviction -/

/-- C3 counterexample: with `MAX_CACHE_SIZE = 2`, `MAX_CACHE_OFFSET = 1`,
the completed trace `set [0,1]; set [0]; set [1]` reaches `size() = 3` with
`[2]` not present, so the next `set [2]` satisfies "size + 1 exceeds
MAX_SIZE + MAX_OFFSET"; yet it neither evicts nor inserts: the scan reads
`internalGet(key)![1]` of registered key `[0,1]`, whose leaf was destroyed
when `set [0]` overwrote the final node, and throws (`none`). -/
theorem c3_eviction_counterexample :
    (runOps 2 1 [CacheOp.insertOp [0, 1] 0, CacheOp.insertOp [0] 1,
       CacheOp.insertOp [1] 2]).map (fun s => (s.size, s.has [2])) = some (3, false) ∧
    runOps 2 1 [CacheOp.insertOp [0, 1] 0, CacheOp.insertOp [0] 1,
       CacheOp.insertOp [1] 2, CacheOp.insertOp [2] 3] = none := by
  constructor
  · rfl
  · rfl

set_option maxRecDepth 20000 in
/-- C3 amended: provided every registered sequence still holds a leaf (true
whenever no stored sequence is a proper prefix of another), its stamp is
below the access counter, and `MAX_SIZE + MAX_OFFSET ≥ 1`: `set` of a
sequence not already present first evicts exactly when current size + 1
exceeds `MAX_SIZE + MAX_OFFSET`, deleting the registered sequence whose leaf
has the smallest access-counter stamp (ties broken by registry order, first
match wins) before inserting; with the default `MAX_SIZE = 20` and
`MAX_OFFSET = 5`, inserting 26 distinct singleton sequences keeps
`size() ≤ 25` after every operation and finally evicts exactly the first
inserted sequence; and in the concrete scenario `MAX_SIZE = 2`,
`MAX_OFFSET = 1`, inserting `[A],[B],[C]` gives `size() = 3` and then
inserting `[D]` evicts `A`, leaving exactly `{B, C, D}` with `size() = 3`. -/
theorem c3_lru_eviction :
    (∀ (ms mo : Nat) (s : ThemeCache) (q : List Nat) (v : Nat),
      (∀ k ∈ s.keys, (stampOfB s k).isSome = true) →
      (∀ k ∈ s.keys, stampOfD s k < s.cacheCallTimes) →
      1 ≤ ms + mo → q ≠ [] → s.has q = false →
      ((s.size + 1 ≤ ms + mo →
        ThemeCache.set ms mo s q v =
          some ⟨writePath s.cache q v s.cacheCallTimes, s.keys ++ [q],
            s.cacheCallTimes + 1⟩) ∧
       (s.size + 1 > ms + mo →
        ∃ tk r s1, FirstMinStamp s tk ∧ s.delete tk = some (r, s1) ∧
          ThemeCache.set ms mo s q v =
            some ⟨writePath s1.cache q v s1.cacheCallTimes, s1.keys ++ [q],
              s1.cacheCallTimes + 1⟩)))
    ∧ (((List.range 27).all (fun k =>
        match runOps ThemeCache.MAX_CACHE_SIZE ThemeCache.MAX_CACHE_OFFSET
          (((List.range 26).map (fun i => CacheOp.insertOp [i] i)).take k) with
        | some s => decide (s.size ≤ 25)
        | none => false)) = true
      ∧ (runOps ThemeCache.MAX_CACHE_SIZE ThemeCache.MAX_CACHE_OFFSET
          ((List.range 26).map (fun i => CacheOp.insertOp [i] i))).map
            (fun s => s.keys) = some ((List.range' 1 25).map (fun i => [i])))
    ∧ ((runOps 2 1 [CacheOp.insertOp [10] 0, CacheOp.insertOp [11] 1,
        CacheOp.insertOp [12] 2]).map (fun s => s.size) = some 3
      ∧ (runOps 2 1 [CacheOp.insertOp [10] 0, CacheOp.insertOp [11] 1,
          CacheOp.insertOp [12] 2, CacheOp.insertOp [13] 3]).map
            (fun s => (s.size, s.keys)) = some (3, [[11], [12], [13]])) := by
  refine ⟨?_, ⟨by rfl, by rfl⟩, ⟨by rfl, by rfl⟩⟩
  intro ms mo s q v hGR hsb hcap hne hhas
  constructor
  · intro hle
    exact set_noEvict ms mo s q v hhas (Nat.not_lt.2 hle) hne
  · intro hgt
    have hkne : s.keys ≠ [] := by
      intro hc
      have : s.size = 0 := by simp [ThemeCache.size, hc]
      omega
    obtain ⟨tk, hscan, hfms⟩ := evictScan_spec s hkne hGR hsb
    have htkmem : tk ∈ s.keys := by
      obtain ⟨i, hi, htk, _, _⟩ := hfms
      rw [htk, List.getD_eq_getElem s.keys [] hi]
      exact List.getElem_mem hi
    have htkB : (stampOfB s tk).isSome = true := hGR tk htkmem
    have htkhas : s.has tk = true := by rw [has_eq_stampOfB_isSome]; exact htkB
    have htkiga : ((internalGetAux s.cache tk).bind TNode.value).isSome = true := by
      unfold stampOfB at htkB
      cases hc : (internalGetAux s.cache tk).bind TNode.value with
      | none => rw [hc] at htkB; exact absurd htkB (by simp)
      | some w => rfl
    have hdbp := deleteByPath_isSome tk s.cache htkiga
    obtain ⟨p, hp⟩ := Option.isSome_iff_exists.1 hdbp
    obtain ⟨rr, m'⟩ := p
    have hdel := delete_of_has s tk rr m' htkhas hp
    refine ⟨tk, rr,
      ⟨m', s.keys.filter (fun item => !sameDerivativeOption item tk), s.cacheCallTimes⟩,
      hfms, hdel, ?_⟩
    exact set_evict ms mo s q v tk rr _ hhas hgt hscan hdel hne

/-- C3 witness: the general rule applied in the no-eviction regime — with
one registered sequence and default capacity, inserting a new singleton
registers it without eviction. -/
theorem c3_lru_eviction_witness :
    ThemeCache.set ThemeCache.MAX_CACHE_SIZE ThemeCache.MAX_CACHE_OFFSET
      (ThemeCache.mk (TMap.cons 0 (TNode.mk none (some (5, 0))) TMap.nil) [[0]] 1) [1] 9
      = some ⟨writePath
          (TMap.cons 0 (TNode.mk none (some (5, 0))) TMap.nil) [1] 9 1,
          [[0], [1]], 2⟩ :=
  (c3_lru_eviction.1 ThemeCache.MAX_CACHE_SIZE ThemeCache.MAX_CACHE_OFFSET
    (ThemeCache.mk (TMap.cons 0 (TNode.mk none (some (5, 0))) TMap.nil) [[0]] 1)
    [1] 9 (by decide) (by decide) (by decide) (by decide) (by decide)).1 (by decide)
